import Mathlib

/-!
# Verification of the `diff-delta.c` delta encoder

A shallow embedding of `src/diff-delta.c` (the git binary-delta encoder
lifted from LibXDiff): the Adler-32 fingerprint, the block-index
construction (`delta_prepare`), the greedy match search and opcode
serialisation (`diff_delta`), together with a delta applier modelled from
the wire-format specification (the applier itself is an external
collaborator of the program and has no source here).

Modelling conventions:
* byte buffers are `List Nat`; a store into a `unsigned char` slot
  truncates with `% 256`;
* `x & 0xff` is rendered `x % 256`, `x >> 8` is `x / 256`, `x >> 7` is
  `x / 128`, `x | 0x80` on a byte `b < 256` is `b % 128 + 128`;
* size/offset arithmetic is `Nat`, with the one wrapping operation the
  encoder can reach — the `unsigned int` capacity growth
  `outsize = outsize * 3 / 2` — modelled with its 32-bit truncation; the
  top-level theorems quantify over the domain on which every other C
  integer provably stays in range (`|R| < 2^31` for the `int bufsize` of
  `delta_prepare`, `|T| ≤ 2^28` so the `unsigned int` write position and
  capacity stay below `2^31`, `max_size < 2^64` as `unsigned long`), so
  on that domain the `Nat` values coincide with the C values;
* `malloc`/`realloc` are assumed to succeed (out-of-memory is not
  modelled); every store into the output buffer is additionally checked
  against the current capacity and the result of all checks is returned
  as a `Bool` alongside the produced buffer, so that in-bounds claims can
  be stated;
* the two `while` loops driven by pointers are given explicit fuel that
  the entry point instantiates large enough to be unreachable.
-/

namespace DiffDelta

/-- Adler-32 per RFC 1950 / zlib: running sums `a`, `b` modulo 65521 over
the data bytes, seeded from the low/high 16-bit halves of `adler`
(`diff-delta.c` always passes seed 0, so `a` starts at 0). -/
def adler32 (adler : Nat) (buf : List Nat) : Nat :=
  let s := buf.foldl
    (fun (ab : Nat × Nat) d =>
      (((ab.1 + d) % 65521), ((ab.2 + ((ab.1 + d) % 65521)) % 65521)))
    (adler % 65536, adler / 65536 % 65536)
  s.2 * 65536 + s.1

/-- `BLK_SIZE`: the fixed block size of the reference index. -/
def BLK_SIZE : Nat := 16

/-- `GR_PRIME`, the golden-ratio multiplier of the `HASH` macro. -/
def GR_PRIME : Nat := 0x9e370001

/-- The `HASH(v, b)` macro: `((unsigned int)(v) * GR_PRIME) >> (32 - b)`,
with the 32-bit truncation of the product made explicit. -/
def hashv (v b : Nat) : Nat := v * GR_PRIME % 2 ^ 32 / 2 ^ (32 - b)

/-- The `while (val < size && bits < 32)` loop of `hashbits`; the guard
`bits < 32` is represented by the fuel, which callers start at 32 so that
it reaches 0 exactly when `bits` reaches 32. -/
def hashbitsAux (size : Nat) : Nat → Nat → Nat → Nat
  | 0, _, bits => bits
  | fuel + 1, val, bits =>
    if val < size then hashbitsAux size fuel (val * 2) (bits + 1) else bits

/-- `hashbits(size)`: smallest number of bits (capped at 32) such that
`2^bits ≥ size`, but never 0 (`return bits ? bits : 1`). -/
def hashbits (size : Nat) : Nat :=
  let bits := hashbitsAux size 32 1 0
  if bits = 0 then 1 else bits

/-- The prepared block index (`bdfile_t`): the hash-width `fphbits` and the
bucket table, modelled as a function from bucket index to the chain of
`(fingerprint, reference position)` records. -/
structure BDFile where
  fphbits : Nat
  fphash : Nat → List (Nat × Nat)

/-- The descending walk `for ( ; data >= buf; data -= BLK_SIZE)`: `k` is
the number of remaining steps (`start / BLK_SIZE` at the entry, since
`start` is always a multiple of 16). -/
def descWalk : Nat → Nat → List Nat
  | 0, data => [data]
  | k + 1, data => data :: descWalk k (data - 16)

/-- Start of the last indexed block:
`data = buf + (bufsize / BLK_SIZE) * BLK_SIZE; if (data == top) data -= BLK_SIZE;`. -/
def blockStart (bufsize : Nat) : Nat :=
  if bufsize / 16 * 16 = bufsize then bufsize - 16 else bufsize / 16 * 16

/-- Fingerprint of the reference block at position `p`:
`adler32(0, data, MIN(BLK_SIZE, top - data))`. -/
def fpAt (buf : List Nat) (p : Nat) : Nat :=
  adler32 0 ((buf.drop p).take (min 16 (buf.length - p)))

/-- `delta_prepare`: build the block index over the reference.  Each block
record is prepended to its bucket (`brec->next = fphash[i]; fphash[i] = brec`)
while the positions are visited in descending order.  Allocation failure is
not modelled. -/
def delta_prepare (buf : List Nat) : BDFile :=
  let fphbits := hashbits (buf.length / 16 + 1)
  let start := blockStart buf.length
  let tbl := (descWalk (start / 16) start).foldl
    (fun tbl p =>
      let f := fpAt buf p
      let i := hashv f fphbits
      fun j => if j = i then (f, p) :: tbl j else tbl j)
    (fun _ => [])
  ⟨fphbits, tbl⟩

/-- The `COPYOP_SIZE(o, s)` macro: one command byte plus one byte per
nonzero byte of the 4-byte offset and the 2 low bytes of the size
(`!!(o & 0xff)` is rendered as the corresponding byte extracted with
division and modulus). -/
def COPYOP_SIZE (o s : Nat) : Nat :=
  (if o % 256 ≠ 0 then 1 else 0) + (if o / 256 % 256 ≠ 0 then 1 else 0) +
  (if o / 65536 % 256 ≠ 0 then 1 else 0) + (if o / 16777216 % 256 ≠ 0 then 1 else 0) +
  (if s % 256 ≠ 0 then 1 else 0) + (if s / 256 % 256 ≠ 0 then 1 else 0) + 1

/-- `MAX_OP_SIZE`: the `COPYOP_SIZE` macro evaluated at all-ones arguments. -/
def MAX_OP_SIZE : Nat := COPYOP_SIZE 0xffffffff 0xffffffff

/-- The inner byte-comparison loop
`for (ptr1 = .., ptr2 = ..; csize && *ptr1 == *ptr2; csize--, ptr1++, ptr2++);`
computed on the two suffixes: the initial cap
`csize = min(ref_top - brec->ptr, top - data)` is exactly the length of the
shorter suffix, at which this common-run count stops by itself. -/
def commonLen : List Nat → List Nat → Nat
  | a :: as, b :: bs => if a = b then commonLen as bs + 1 else 0
  | _, _ => 0

/-- The chain walk `for (brec = bdf.fphash[i]; brec; brec = brec->next)`:
accumulator is the running `(msize, moff)`; a record only counts when its
stored fingerprint equals the target fingerprint `fp`; on strict
improvement the match is adopted, and reaching `0x10000` clamps and
breaks. -/
def walkChain (R T : List Nat) (pos fp : Nat) :
    List (Nat × Nat) → Nat × Nat → Nat × Nat
  | [], acc => acc
  | (f, p) :: rest, (msize, moff) =>
    if f = fp then
      let csize := commonLen (R.drop p) (T.drop pos)
      if csize > msize then
        if csize ≥ 65536 then (65536, p)
        else walkChain R T pos fp rest (csize, p)
      else walkChain R T pos fp rest (msize, moff)
    else walkChain R T pos fp rest (msize, moff)

/-- The encoder's branch condition
`if (!msize || msize < COPYOP_SIZE(moff, msize))`: take the INSERT
(literal) path exactly when it holds. -/
def literalCond (msize moff : Nat) : Prop :=
  msize = 0 ∨ msize < COPYOP_SIZE moff msize

instance (msize moff : Nat) : Decidable (literalCond msize moff) := by
  unfold literalCond
  infer_instance

/-- Serialisation of a COPY opcode (lines 250–265): reserve the command
byte, then emit each nonzero byte of the offset (shifting by 8 between
tests) and of the low 16 bits of the size, OR-ing the corresponding
presence bit into the command.  The presence bits are distinct powers of
two, so the accumulated OR is written as a sum here, and the
reserve-then-backfill of the command byte is rendered by consing the
finished command in front of the operand bytes. -/
def copyOp (moff msize : Nat) : List Nat :=
  let o0 := moff % 256
  let m1 := moff / 256
  let o1 := m1 % 256
  let m2 := m1 / 256
  let o2 := m2 % 256
  let m3 := m2 / 256
  let o3 := m3 % 256
  let s0 := msize % 256
  let s1 := msize / 256 % 256
  let cmd := 128 + (if o0 ≠ 0 then 1 else 0) + (if o1 ≠ 0 then 2 else 0) +
    (if o2 ≠ 0 then 4 else 0) + (if o3 ≠ 0 then 8 else 0) +
    (if s0 ≠ 0 then 16 else 0) + (if s1 ≠ 0 then 32 else 0)
  cmd :: ((if o0 ≠ 0 then [o0] else []) ++ (if o1 ≠ 0 then [o1] else []) ++
    (if o2 ≠ 0 then [o2] else []) ++ (if o3 ≠ 0 then [o3] else []) ++
    (if s0 ≠ 0 then [s0] else []) ++ (if s1 ≠ 0 then [s1] else []))

/-- A checked store-and-append into the output buffer: the written value is
truncated to a byte, and the flag records whether the store index
(`st.1.length`, the current `outpos`) lies below the capacity `outsize`. -/
def pushB (outsize : Nat) (st : List Nat × Bool) (v : Nat) : List Nat × Bool :=
  (st.1 ++ [v % 256], st.2 && decide (st.1.length < outsize))

/-- `out[outpos - 1] |= 0x80`: the previous byte `b` (always `< 256`) is
replaced by `b % 128 + 128`, and the store is bounds-checked. -/
def orLast (outsize : Nat) (st : List Nat × Bool) : List Nat × Bool :=
  (st.1.set (st.1.length - 1) (st.1.getD (st.1.length - 1) 0 % 128 + 128),
   st.2 && decide (st.1.length - 1 < outsize))

/-- The `while (from_size) { out[outpos - 1] |= 0x80; out[outpos++] = from_size;
from_size >>= 7; }` loop of the header writer.  Fuel bounds the number of
iterations; the caller passes the initial value itself, which always
suffices because `v / 128 < v` for `v ≠ 0`. -/
def emitLebAux (outsize : Nat) : Nat → Nat → (List Nat × Bool) → List Nat × Bool
  | 0, _, st => st
  | fuel + 1, v, st =>
    if v = 0 then st
    else emitLebAux outsize fuel (v / 128) (pushB outsize (orLast outsize st) v)

/-- Emission of one variable-length header integer:
`out[outpos++] = v; v >>= 7; while (v) { ... }`. -/
def emitLeb (outsize v : Nat) (st : List Nat × Bool) : List Nat × Bool :=
  emitLebAux outsize v (v / 128) (pushB outsize st v)

/-- Pure description of the byte run produced by the header writer once the
first byte `b` is down and `w` is the value still to emit: the loop of
`emitLebAux` ORs the continuation bit into the last byte and appends the
next 7-bit group until the value is exhausted. -/
def lebRun : Nat → Nat → Nat → List Nat
  | 0, _, b => [b]
  | fuel + 1, w, b =>
    if w = 0 then [b] else (b % 128 + 128) :: lebRun fuel (w / 128) (w % 256)

/-- The bytes the header writer emits for the value `v`. -/
def lebBytes (v : Nat) : List Nat := lebRun v (v / 128) (v % 256)

/-- The end-of-iteration growth check (lines 268–282): grow the capacity by
3/2 — `outsize` is a C `unsigned int`, so the product truncates modulo
`2^32`, as does the clamp to `max_size + MAX_OP_SIZE + 1` on assignment —
and fail (returning `none`) when the written length already exceeds a
nonzero `max_size`.  Reallocation itself always succeeds in the model. -/
def checkGrow (max_size outpos outsize : Nat) : Option Nat :=
  if outpos ≥ outsize - MAX_OP_SIZE then
    let newsize := outsize * 3 % 2 ^ 32 / 2
    let newsize := if max_size ≠ 0 ∧ newsize ≥ max_size
      then (max_size + MAX_OP_SIZE + 1) % 2 ^ 32 else newsize
    if max_size ≠ 0 ∧ outpos > max_size then none else some newsize
  else some outsize

/-- The main encoding loop `while (data < top)` of `diff_delta`.
State: current target position `pos` (`data`), the output buffer so far
`out` (its length is `outpos`), the pending literal count `inscnt`, the
current capacity `outsize`, the threaded `moff` variable, and the
accumulated store-bounds flag `ok`.  Each iteration fingerprints the next
block, walks the matching bucket chain, then either appends one literal
byte (INSERT path, with lazy reservation of the length byte and backfill
at `0x7f`) or appends a COPY opcode, and finally runs the growth check.
Fuel decreases once per iteration; every iteration consumes at least one
target byte, so fuel `|T|` is never exhausted. -/
def encodeLoop (R T : List Nat) (bdf : BDFile) (max_size fuel pos : Nat)
    (out : List Nat) (inscnt outsize moff0 : Nat) (ok : Bool) :
    Bool × Option (List Nat) :=
  if pos < T.length then
    match fuel with
    | 0 => (ok, none)
    | fuel + 1 =>
      let fp := adler32 0 ((T.drop pos).take (min (T.length - pos) 16))
      let i := hashv fp bdf.fphbits
      let mm := walkChain R T pos fp (bdf.fphash i) (0, moff0)
      let msize := mm.1
      let moff := mm.2
      if literalCond msize moff then
        let out1 := if inscnt = 0 then out ++ [0] else out
        let ok1 := ok && decide (out1.length < outsize)
        let out2 := out1 ++ [T.getD pos 0 % 256]
        let inscnt1 := inscnt + 1
        if inscnt1 = 127 then
          let ok2 := ok1 && decide (out2.length - inscnt1 - 1 < outsize)
          let out3 := out2.set (out2.length - inscnt1 - 1) inscnt1
          match checkGrow max_size out3.length outsize with
          | none => (ok2, none)
          | some os => encodeLoop R T bdf max_size fuel (pos + 1) out3 0 os moff ok2
        else
          match checkGrow max_size out2.length outsize with
          | none => (ok1, none)
          | some os => encodeLoop R T bdf max_size fuel (pos + 1) out2 inscnt1 os moff ok1
      else
        let ok1 := if inscnt ≠ 0 then ok && decide (out.length - inscnt - 1 < outsize) else ok
        let out1 := if inscnt ≠ 0 then out.set (out.length - inscnt - 1) inscnt else out
        let cb := copyOp moff msize
        let ok2 := ok1 && decide (out1.length + cb.length ≤ outsize)
        let out2 := out1 ++ cb
        match checkGrow max_size out2.length outsize with
        | none => (ok2, none)
        | some os => encodeLoop R T bdf max_size fuel (pos + msize) out2 0 os moff ok2
  else
    if inscnt ≠ 0 then
      (ok && decide (out.length - inscnt - 1 < outsize),
       some (out.set (out.length - inscnt - 1) inscnt))
    else (ok, some out)

/-- `diff_delta(from, from_size, to, to_size, &delta_size, max_size)`:
the empty-input guard, the initial capacity choice, the two header
integers, then the main loop.  The first component collects the
store-bounds checks, the second is the produced delta (`none` stands for
the NULL return). -/
def diff_delta_impl (from_buf to_buf : List Nat) (max_size : Nat) :
    Bool × Option (List Nat) :=
  if from_buf.length = 0 ∨ to_buf.length = 0 then (true, none)
  else
    let bdf := delta_prepare from_buf
    let outsize := if max_size ≠ 0 ∧ 8192 ≥ max_size
      then max_size + MAX_OP_SIZE + 1 else 8192
    let st0 := emitLeb outsize from_buf.length ([], true)
    let st1 := emitLeb outsize to_buf.length st0
    encodeLoop from_buf to_buf bdf max_size to_buf.length 0 st1.1 0 outsize 0 st1.2

/-- The delta produced by `diff_delta` (`none` = NULL return). -/
def diff_delta (from_buf to_buf : List Nat) (max_size : Nat) : Option (List Nat) :=
  (diff_delta_impl from_buf to_buf max_size).2

/-- Whether every byte store performed by `diff_delta` landed strictly
below the output buffer's capacity at the time of the store. -/
def diff_delta_storesOk (from_buf to_buf : List Nat) (max_size : Nat) : Bool :=
  (diff_delta_impl from_buf to_buf max_size).1

/-! ## The applier, modelled from the wire-format specification (§6)

The matching delta applier is an external collaborator: only its on-wire
contract is specified.  The following definitions are modelled from the
spec: LEB128 header parsing, opcode stream parsing (INSERT runs and COPY
opcodes with presence-bit operand bytes and the `size = 0 ⇒ 0x10000`
rule), and opcode execution against the reference buffer. -/

/-- A parsed delta opcode: an INSERT of literal bytes, or a COPY of
`size` bytes from reference offset `off`. -/
inductive DOp where
  | ins : List Nat → DOp
  | cpy : Nat → Nat → DOp
  deriving DecidableEq

/-- Modelled from the spec: LEB128 decoding, 7 payload bits per byte,
low-order first, high bit = continuation. -/
def lebDecode : List Nat → Option (Nat × List Nat)
  | [] => none
  | b :: rest =>
    if b < 128 then some (b, rest)
    else
      match lebDecode rest with
      | some (v, r) => some (b % 128 + 128 * v, r)
      | none => none

/-- Modelled from the spec: read one operand byte when its presence bit is
set, else take 0 ("missing bytes are zero"). -/
def readIf (c : Bool) (l : List Nat) : Option (Nat × List Nat) :=
  if c then
    match l with
    | [] => none
    | x :: r => some (x, r)
  else some (0, l)

/-- Modelled from the spec: decode the operand bytes of a COPY command
byte — bits 0–3 select offset bytes (LSB first), bits 4–5 size bytes, and
an assembled size of zero means `0x10000`. -/
def readCopyOperands (cmd : Nat) (l : List Nat) : Option ((Nat × Nat) × List Nat) :=
  match readIf (cmd % 2 = 1) l with
  | none => none
  | some (o0, l1) =>
    match readIf (cmd / 2 % 2 = 1) l1 with
    | none => none
    | some (o1, l2) =>
      match readIf (cmd / 4 % 2 = 1) l2 with
      | none => none
      | some (o2, l3) =>
        match readIf (cmd / 8 % 2 = 1) l3 with
        | none => none
        | some (o3, l4) =>
          match readIf (cmd / 16 % 2 = 1) l4 with
          | none => none
          | some (s0, l5) =>
            match readIf (cmd / 32 % 2 = 1) l5 with
            | none => none
            | some (s1, l6) =>
              let off := o0 + 256 * o1 + 65536 * o2 + 16777216 * o3
              let sz := s0 + 256 * s1
              some ((off, if sz = 0 then 65536 else sz), l6)

/-- Modelled from the spec: parse the opcode stream that follows the two
headers, with fuel bounding the number of opcodes.  A command byte with
bit 7 set is a COPY; `0x00` is reserved and rejected; `0x01..0x7f`
announces that many literal bytes. -/
def parseOpsF : Nat → List Nat → Option (List DOp)
  | _, [] => some []
  | 0, _ :: _ => none
  | fuel + 1, cmd :: rest =>
    if 128 ≤ cmd then
      match readCopyOperands cmd rest with
      | none => none
      | some (os, r) =>
        match parseOpsF fuel r with
        | some ops => some (DOp.cpy os.1 os.2 :: ops)
        | none => none
    else
      if cmd = 0 then none
      else
        if rest.length < cmd then none
        else
          match parseOpsF fuel (rest.drop cmd) with
          | some ops => some (DOp.ins (rest.take cmd) :: ops)
          | none => none

/-- Modelled from the spec: the opcode stream parser.  Every opcode
consumes at least one byte, so the stream length is enough fuel. -/
def parseOps (l : List Nat) : Option (List DOp) :=
  parseOpsF l.length l

/-- Modelled from the spec: run a parsed opcode list against the
reference, producing the reconstructed target.  A COPY that reaches
outside the reference fails. -/
def runOps (R : List Nat) : List DOp → Option (List Nat)
  | [] => some []
  | DOp.ins bs :: ops =>
    match runOps R ops with
    | some t => some (bs ++ t)
    | none => none
  | DOp.cpy off sz :: ops =>
    if off + sz ≤ R.length then
      match runOps R ops with
      | some t => some ((R.drop off).take sz ++ t)
      | none => none
    else none

/-- Modelled from the spec: a conforming applier.  Parse the two LEB128
headers, parse and run the opcode stream, and check that the announced
sizes match the reference and the reconstruction. -/
def applyDelta (R : List Nat) (d : List Nat) : Option (List Nat) :=
  match lebDecode d with
  | none => none
  | some (rsz, d1) =>
    match lebDecode d1 with
    | none => none
    | some (tsz, d2) =>
      match parseOps d2 with
      | none => none
      | some ops =>
        match runOps R ops with
        | none => none
        | some t => if rsz = R.length ∧ t.length = tsz then some t else none

/-- Modelled from the spec: the claimed cost of a COPY opcode, namely one
command byte plus one byte for every nonzero byte among the four offset
bytes and the two low size bytes. -/
def specCost (off size : Nat) : Nat :=
  1 + ([off % 256, off / 256 % 256, off / 65536 % 256,
        off / 16777216 % 256].filter (· ≠ 0)).length
    + ([size % 256, size / 256 % 256].filter (· ≠ 0)).length

/-! ## Concrete inputs used in the analyses below -/

/-- A 16-byte block with pairwise distinct bytes. -/
def sampleBlock : List Nat := [1, 2, 3, 4, 5, 6, 7, 8, 9, 10, 11, 12, 13, 14, 15, 16]

/-- A reference made of the same block twice: both copies index into the
same hash bucket. -/
def refTwice : List Nat := sampleBlock ++ sampleBlock

/-- A 16-byte reference sharing no usable block with `tgtRuns`. -/
def refLone : List Nat := [0, 0, 0, 0, 0, 0, 0, 0, 0, 0, 0, 0, 0, 1, 0, 0]

/-- A 6-byte target whose encoding needs several opcodes. -/
def tgtRuns : List Nat := [1, 0, 0, 1, 0, 0]

/-! ## Basic facts about the opcode cost and the match scan -/

/-- `MAX_OP_SIZE` computes to 7 (shared numeric fact). -/
theorem max_op_size_val : MAX_OP_SIZE = 7 := by decide

/-- The cost macro is at least the command byte. -/
theorem copyop_size_pos (o s : Nat) : 1 ≤ COPYOP_SIZE o s := by
  unfold COPYOP_SIZE
  split_ifs <;> omega

/-- The cost macro never exceeds 7. -/
theorem copyop_size_le (o s : Nat) : COPYOP_SIZE o s ≤ 7 := by
  unfold COPYOP_SIZE
  split_ifs <;> omega

/-- The serialised COPY opcode has exactly the length the cost macro
predicts. -/
theorem copyOp_length (moff msize : Nat) :
    (copyOp moff msize).length = COPYOP_SIZE moff msize := by
  simp only [copyOp, COPYOP_SIZE, Nat.div_div_eq_div_mul, List.length_cons,
    List.length_append, apply_ite List.length, List.length_singleton,
    List.length_nil]

/-- The serialised COPY opcode is at most `MAX_OP_SIZE` bytes. -/
theorem copyOp_length_le (moff msize : Nat) : (copyOp moff msize).length ≤ 7 :=
  (copyOp_length moff msize).le.trans (copyop_size_le moff msize)

/-- The common-run count is bounded by the left length. -/
theorem commonLen_le_left : ∀ a b : List Nat, commonLen a b ≤ a.length := by
  intro a
  induction a with
  | nil => intro b; cases b <;> simp [commonLen]
  | cons x as ih =>
    intro b
    cases b with
    | nil => simp [commonLen]
    | cons y bs =>
      simp only [commonLen, List.length_cons]
      split
      · exact Nat.succ_le_succ (ih bs)
      · omega

/-- The common-run count is bounded by the right length. -/
theorem commonLen_le_right : ∀ a b : List Nat, commonLen a b ≤ b.length := by
  intro a
  induction a with
  | nil => intro b; cases b <;> simp [commonLen]
  | cons x as ih =>
    intro b
    cases b with
    | nil => simp [commonLen]
    | cons y bs =>
      simp only [commonLen, List.length_cons]
      split
      · exact Nat.succ_le_succ (ih bs)
      · omega

/-- Up to the common-run count, the two lists agree. -/
theorem commonLen_take : ∀ (a b : List Nat) (k : Nat),
    k ≤ commonLen a b → a.take k = b.take k := by
  intro a
  induction a with
  | nil =>
    intro b k h
    cases b <;> simp [commonLen] at h <;> simp [h]
  | cons x as ih =>
    intro b k h
    cases b with
    | nil => simp [commonLen] at h; simp [h]
    | cons y bs =>
      simp only [commonLen] at h
      by_cases hxy : x = y
      · rw [if_pos hxy] at h
        cases k with
        | zero => simp
        | succ k =>
          simp only [List.take_succ_cons, hxy]
          rw [ih bs k (by omega)]
      · rw [if_neg hxy] at h
        interval_cases k
        simp

/-- Soundness of the chain walk: whenever the final best match is nonzero,
the matched reference bytes equal the target bytes, the match stays inside
the reference and the remaining target, and its size is clamped at
`0x10000`. -/
theorem walkChain_spec (R T : List Nat) (pos fp : Nat) :
    ∀ (l : List (Nat × Nat)) (acc : Nat × Nat),
      (acc.1 ≠ 0 →
        (R.drop acc.2).take acc.1 = (T.drop pos).take acc.1 ∧
        acc.2 + acc.1 ≤ R.length ∧ acc.1 ≤ T.length - pos ∧ acc.1 ≤ 65536) →
      ((walkChain R T pos fp l acc).1 ≠ 0 →
        (R.drop (walkChain R T pos fp l acc).2).take (walkChain R T pos fp l acc).1
            = (T.drop pos).take (walkChain R T pos fp l acc).1 ∧
        (walkChain R T pos fp l acc).2 + (walkChain R T pos fp l acc).1 ≤ R.length ∧
        (walkChain R T pos fp l acc).1 ≤ T.length - pos ∧
        (walkChain R T pos fp l acc).1 ≤ 65536) := by
  intro l
  induction l with
  | nil => intro acc h; simpa [walkChain] using h
  | cons e rest ih =>
    intro acc hacc
    obtain ⟨f, p⟩ := e
    obtain ⟨msize, moff⟩ := acc
    simp only [walkChain]
    by_cases hf : f = fp
    · rw [if_pos hf]
      by_cases hgt : commonLen (R.drop p) (T.drop pos) > msize
      · rw [if_pos hgt]
        have hcs1 : commonLen (R.drop p) (T.drop pos) ≤ (R.drop p).length :=
          commonLen_le_left _ _
        have hcs2 : commonLen (R.drop p) (T.drop pos) ≤ (T.drop pos).length :=
          commonLen_le_right _ _
        have hdR : (R.drop p).length = R.length - p := List.length_drop p R
        have hdT : (T.drop pos).length = T.length - pos := List.length_drop pos T
        by_cases hbig : commonLen (R.drop p) (T.drop pos) ≥ 65536
        · rw [if_pos hbig]
          intro _
          refine ⟨commonLen_take _ _ _ hbig, by omega, by omega, le_rfl⟩
        · rw [if_neg hbig]
          apply ih
          intro _
          exact ⟨commonLen_take _ _ _ le_rfl, by omega, by omega, by omega⟩
      · rw [if_neg hgt]
        exact ih _ hacc
    · rw [if_neg hf]
      exact ih _ hacc

/-! ## List helpers for the backfilled INSERT length byte -/

/-- Setting the element right after `front` in `front ++ a :: l`. -/
theorem set_append_cons (front : List Nat) (a c : Nat) (l : List Nat) :
    (front ++ a :: l).set front.length c = front ++ c :: l := by
  rw [List.set_append]
  simp

/-- Reading the element right after `front` in `front ++ [b]`. -/
theorem getD_append_len (front : List Nat) (b : Nat) :
    (front ++ [b]).getD front.length 0 = b := by
  rw [List.getD_append_right _ _ _ _ le_rfl]
  simp [List.getD]

/-! ## The variable-length header integers -/

/-- The header-writer loop appends exactly the `lebRun` bytes, and its
store checks amount to the last written index lying below the capacity. -/
theorem emitLebAux_spec (outsize : Nat) :
    ∀ (fuel w b : Nat) (front : List Nat) (ok : Bool), w ≤ fuel →
      emitLebAux outsize fuel w (front ++ [b], ok && decide (front.length < outsize)) =
        (front ++ lebRun fuel w b,
         ok && decide (front.length + (lebRun fuel w b).length ≤ outsize)) := by
  intro fuel
  induction fuel with
  | zero =>
    intro w b front ok hw
    have hw0 : w = 0 := by omega
    subst hw0
    have hd : decide (front.length < outsize)
        = decide (front.length + ([b] : List Nat).length ≤ outsize) := by
      rw [decide_eq_decide]
      simp
      omega
    simp only [emitLebAux, lebRun]
    rw [hd]
  | succ fuel ih =>
    intro w b front ok hw
    by_cases hw0 : w = 0
    · subst hw0
      have hd : decide (front.length < outsize)
          = decide (front.length + ([b] : List Nat).length ≤ outsize) := by
        rw [decide_eq_decide]
        simp
        omega
      rw [hd]
      simp [emitLebAux, lebRun]
    · have hrec : w / 128 ≤ fuel := by
        have : w / 128 < w := Nat.div_lt_self (by omega) (by omega)
        omega
      simp only [emitLebAux, if_neg hw0, orLast, pushB, List.length_append,
        List.length_singleton, Nat.add_sub_cancel, getD_append_len, set_append_cons,
        Bool.and_assoc, Bool.and_self]
      have hassoc : (ok && (decide (front.length < outsize) && decide (front.length + 1 < outsize)))
          = ((ok && decide (front.length < outsize))
            && decide ((front ++ [b % 128 + 128]).length < outsize)) := by
        simp [Bool.and_assoc]
      rw [hassoc, ih (w / 128) (w % 256) (front ++ [b % 128 + 128])
        (ok && decide (front.length < outsize)) hrec]
      have hrun : lebRun (fuel + 1) w b
          = (b % 128 + 128) :: lebRun fuel (w / 128) (w % 256) := by
        simp [lebRun, hw0]
      rw [hrun]
      simp only [Prod.mk.injEq]
      constructor
      · simp
      · rw [Bool.and_assoc]
        congr 1
        rw [← Bool.decide_and, decide_eq_decide]
        simp only [List.length_append, List.length_singleton, List.length_cons,
          List.length_nil]
        omega

/-- Header emission: output bytes and the conjunction of its store
checks. -/
theorem emitLeb_spec (outsize v : Nat) (st : List Nat × Bool) :
    emitLeb outsize v st =
      (st.1 ++ lebBytes v,
       st.2 && decide (st.1.length + (lebBytes v).length ≤ outsize)) := by
  obtain ⟨out, ok⟩ := st
  unfold emitLeb pushB lebBytes
  exact emitLebAux_spec outsize v (v / 128) (v % 256) out ok (Nat.div_le_self v 128)

/-- The spec-side LEB128 reader inverts `lebRun`. -/
theorem lebDecode_lebRun : ∀ (fuel v : Nat), v / 128 ≤ fuel →
    ∀ tail, lebDecode (lebRun fuel (v / 128) (v % 256) ++ tail) = some (v, tail) := by
  intro fuel
  induction fuel with
  | zero =>
    intro v hv tail
    have h0 : v / 128 = 0 := by omega
    have hvlt : v < 128 := by omega
    rw [h0]
    simp [lebRun, lebDecode, Nat.mod_eq_of_lt (by omega : v < 256), hvlt]
  | succ fuel ih =>
    intro v hv tail
    by_cases h0 : v / 128 = 0
    · have hvlt : v < 128 := by omega
      rw [h0]
      simp [lebRun, lebDecode, Nat.mod_eq_of_lt (by omega : v < 256), hvlt]
    · simp only [lebRun, if_neg h0, List.cons_append]
      have hb : v % 256 % 128 = v % 128 := Nat.mod_mod_of_dvd v (by norm_num)
      have hge : ¬ (v % 256 % 128 + 128 < 128) := by omega
      simp only [lebDecode, if_neg hge]
      have hrec : v / 128 / 128 ≤ fuel := by
        have : v / 128 / 128 < v / 128 := Nat.div_lt_self (by omega) (by omega)
        omega
      rw [ih (v / 128) hrec tail]
      have : v % 256 % 128 + 128 * (v / 128) = v := by omega
      simp [this]

/-- `lebRun` is never empty. -/
theorem lebRun_pos : ∀ (fuel w b : Nat), 1 ≤ (lebRun fuel w b).length := by
  intro fuel w b
  cases fuel with
  | zero => simp [lebRun]
  | succ fuel =>
    by_cases h : w = 0 <;> simp [lebRun, h]

/-- Length bound for the header bytes: `k` groups of 7 bits take at most
`k` bytes. -/
theorem lebRun_length_le : ∀ (fuel v k : Nat), v / 128 ≤ fuel → 1 ≤ k →
    v < 2 ^ (7 * k) → (lebRun fuel (v / 128) (v % 256)).length ≤ k := by
  intro fuel
  induction fuel with
  | zero =>
    intro v k hv hk _
    have h0 : v / 128 = 0 := by omega
    rw [h0]
    simp [lebRun]
    omega
  | succ fuel ih =>
    intro v k hv hk hbound
    by_cases h0 : v / 128 = 0
    · rw [h0]
      simp [lebRun]
      omega
    · simp only [lebRun, if_neg h0, List.length_cons]
      have hk2 : 2 ≤ k := by
        by_contra hlt
        have hk1 : k = 1 := by omega
        subst hk1
        simp at hbound
        omega
      have hrec : v / 128 / 128 ≤ fuel := by
        have : v / 128 / 128 < v / 128 := Nat.div_lt_self (by omega) (by omega)
        omega
      have hpow : 2 ^ (7 * k) = 2 ^ (7 * (k - 1)) * 128 := by
        have h7 : 7 * k = 7 * (k - 1) + 7 := by omega
        rw [h7, pow_add]
        norm_num
      have hbound2 : v / 128 < 2 ^ (7 * (k - 1)) := by
        rw [Nat.div_lt_iff_lt_mul (by omega : 0 < 128)]
        omega
      have := ih (v / 128) (k - 1) hrec (by omega) hbound2
      omega

/-- The header bytes decode back to the emitted value. -/
theorem lebDecode_lebBytes (v : Nat) (tail : List Nat) :
    lebDecode (lebBytes v ++ tail) = some (v, tail) :=
  lebDecode_lebRun v v (Nat.div_le_self v 128) tail

/-- The header of a value below `2^(7k)` takes at most `k` bytes. -/
theorem lebBytes_length_le (v k : Nat) (hk : 1 ≤ k) (hv : v < 2 ^ (7 * k)) :
    (lebBytes v).length ≤ k :=
  lebRun_length_le v v k (Nat.div_le_self v 128) hk hv

/-- The header of a value is at least one byte. -/
theorem lebBytes_pos (v : Nat) : 1 ≤ (lebBytes v).length :=
  lebRun_pos v (v / 128) (v % 256)

/-! ## Parsing the opcode stream -/

/-- A successful conditional read never lengthens the stream. -/
theorem readIf_length {c : Bool} {l r : List Nat} {x : Nat}
    (h : readIf c l = some (x, r)) : r.length ≤ l.length := by
  cases c with
  | false =>
    simp [readIf] at h
    rw [h.2]
  | true =>
    cases l with
    | nil => simp [readIf] at h
    | cons y ys =>
      simp [readIf] at h
      simp [← h.2]

/-- A successful operand read never lengthens the stream. -/
theorem readCopyOperands_length {cmd : Nat} {l : List Nat} {os : Nat × Nat}
    {r : List Nat} (h : readCopyOperands cmd l = some (os, r)) :
    r.length ≤ l.length := by
  unfold readCopyOperands at h
  split at h
  · exact absurd h (by simp)
  next o0 l1 h1 =>
    split at h
    · exact absurd h (by simp)
    next o1 l2 h2 =>
      split at h
      · exact absurd h (by simp)
      next o2 l3 h3 =>
        split at h
        · exact absurd h (by simp)
        next o3 l4 h4 =>
          split at h
          · exact absurd h (by simp)
          next s0 l5 h5 =>
            split at h
            · exact absurd h (by simp)
            next s1 l6 h6 =>
              simp only [Option.some.injEq, Prod.mk.injEq] at h
              have e1 := readIf_length h1
              have e2 := readIf_length h2
              have e3 := readIf_length h3
              have e4 := readIf_length h4
              have e5 := readIf_length h5
              have e6 := readIf_length h6
              rw [← h.2]
              omega

/-- The fueled parser does not depend on the fuel once it covers the
stream length. -/
theorem parseOpsF_mono : ∀ (fuel fuel' : Nat) (l : List Nat),
    l.length ≤ fuel → l.length ≤ fuel' → parseOpsF fuel l = parseOpsF fuel' l := by
  intro fuel
  induction fuel with
  | zero =>
    intro fuel' l h _
    have hl : l = [] := List.length_eq_zero.1 (by omega)
    subst hl
    cases fuel' <;> simp [parseOpsF]
  | succ fuel ih =>
    intro fuel' l h h'
    cases l with
    | nil => cases fuel' <;> simp [parseOpsF]
    | cons cmd rest =>
      cases fuel' with
      | zero => simp at h'
      | succ fuel' =>
        simp only [parseOpsF]
        by_cases hc : 128 ≤ cmd
        · rw [if_pos hc, if_pos hc]
          cases hco : readCopyOperands cmd rest with
          | none => rfl
          | some pr =>
            obtain ⟨os, r⟩ := pr
            have hr : r.length ≤ rest.length := readCopyOperands_length hco
            simp only [List.length_cons] at h h'
            dsimp only
            rw [ih fuel' r (by omega) (by omega)]
        · rw [if_neg hc, if_neg hc]
          by_cases hc0 : cmd = 0
          · simp [hc0]
          · rw [if_neg hc0, if_neg hc0]
            by_cases hlen : rest.length < cmd
            · rw [if_pos hlen, if_pos hlen]
            · rw [if_neg hlen, if_neg hlen]
              have hdl : (rest.drop cmd).length = rest.length - cmd := by simp
              simp only [List.length_cons] at h h'
              rw [ih fuel' (rest.drop cmd) (by omega) (by omega)]

/-- Parsing a framed INSERT run. -/
theorem parseOps_insert (n : Nat) (bs rest : List Nat) (ops : List DOp)
    (h1 : 1 ≤ n) (h2 : n < 128) (h3 : bs.length = n)
    (h : parseOps rest = some ops) :
    parseOps ((n :: bs) ++ rest) = some (DOp.ins bs :: ops) := by
  unfold parseOps at h ⊢
  simp only [List.cons_append, List.length_cons]
  simp only [parseOpsF]
  rw [if_neg (by omega), if_neg (by omega), if_neg (by simp; omega)]
  rw [← h3, List.take_left, List.drop_left]
  rw [parseOpsF_mono (bs ++ rest).length rest.length rest (by simp) le_rfl, h]

/-- The spec-side operand reader inverts the source's COPY opcode
serialisation (offsets fit in 4 bytes; a size of `0x10000` travels as
"no size bytes"). -/
theorem readCopyOperands_copyOp (moff msize : Nat) (hmo : moff < 2 ^ 32)
    (hms0 : 1 ≤ msize) (hms : msize ≤ 65536) (rest : List Nat) :
    ∃ cmd body, copyOp moff msize = cmd :: body ∧ 128 ≤ cmd ∧
      readCopyOperands cmd (body ++ rest) = some ((moff, msize), rest) := by
  simp only [copyOp]
  by_cases h0 : moff % 256 = 0 <;>
    by_cases h1 : moff / 256 % 256 = 0 <;>
      by_cases h2 : moff / 256 / 256 % 256 = 0 <;>
        by_cases h3 : moff / 256 / 256 / 256 % 256 = 0 <;>
          by_cases h4 : msize % 256 = 0 <;>
            by_cases h5 : msize / 256 % 256 = 0 <;>
              (refine ⟨_, _, rfl, by simp [h0, h1, h2, h3, h4, h5], ?_⟩;
               simp [readCopyOperands, readIf, h0, h1, h2, h3, h4, h5];
               all_goals first
                 | (split_ifs <;> omega)
                 | omega)

/-- Parsing a serialised COPY opcode. -/
theorem parseOps_copy (moff msize : Nat) (rest : List Nat) (ops : List DOp)
    (hmo : moff < 2 ^ 32) (hms0 : 1 ≤ msize) (hms : msize ≤ 65536)
    (h : parseOps rest = some ops) :
    parseOps (copyOp moff msize ++ rest) = some (DOp.cpy moff msize :: ops) := by
  obtain ⟨cmd, body, hco, hcmd, hread⟩ :=
    readCopyOperands_copyOp moff msize hmo hms0 hms rest
  rw [hco]
  unfold parseOps at h ⊢
  simp only [List.cons_append, List.length_cons]
  simp only [parseOpsF]
  rw [if_pos hcmd, hread]
  dsimp only
  rw [parseOpsF_mono (body ++ rest).length rest.length rest (by simp) le_rfl, h]

/-! ## Slice bookkeeping for the literal runs -/

/-- Extending a slice of `T` by one element. -/
theorem take_snoc (T : List Nat) (a k : Nat) (h : a + k < T.length) :
    (T.drop a).take (k + 1) = (T.drop a).take k ++ [T.getD (a + k) 0] := by
  rw [List.take_succ]
  congr 1
  have hk : k < (T.drop a).length := by simp; omega
  rw [List.getElem?_eq_getElem hk]
  simp [List.getElem_drop, List.getD_eq_getElem?_getD, List.getElem?_eq_getElem h]

/-- Glueing a slice of `T` back onto the following suffix. -/
theorem take_glue (T : List Nat) (a k : Nat) :
    (T.drop a).take k ++ T.drop (a + k) = T.drop a := by
  rw [← List.drop_drop k a]
  rw [List.take_append_drop]

/-- A slice of `T` has length `k` when it fits. -/
theorem take_len (T : List Nat) (a k : Nat) (h : a + k ≤ T.length) :
    ((T.drop a).take k).length = k := by
  simp
  omega

/-- Byte buffers are untouched by the `unsigned char` store truncation. -/
theorem map_mod_slice (T : List Nat) (HT : ∀ b ∈ T, b < 256) (a k : Nat) :
    ((T.drop a).take k).map (· % 256) = (T.drop a).take k := by
  have h : ∀ b ∈ (T.drop a).take k, (fun x => x % 256) b = id b := by
    intro b hb
    have hbT : b ∈ T := List.mem_of_mem_drop (List.mem_of_mem_take hb)
    simp [Nat.mod_eq_of_lt (HT b hbT)]
  rw [List.map_congr_left h, List.map_id]

/-- A byte of a byte buffer is untouched by the store truncation. -/
theorem getD_mod (T : List Nat) (HT : ∀ b ∈ T, b < 256) (pos : Nat)
    (h : pos < T.length) : T.getD pos 0 % 256 = T.getD pos 0 := by
  apply Nat.mod_eq_of_lt
  apply HT
  rw [List.getD_eq_getElem?_getD, List.getElem?_eq_getElem h]
  exact List.getElem_mem h

/-! ## The growth check and the loop unfoldings -/

/-- Case analysis of the end-of-iteration growth check: either it fails
(possible only under a nonzero cap), or it returns a capacity that
re-establishes the loop's capacity invariants. -/
theorem checkGrow_cases (maxSize outpos outsize : Nat)
    (Hsz : (maxSize ≠ 0 ∧ outsize = maxSize + 8) ∨ 8192 ≤ outsize)
    (Hcap : maxSize ≠ 0 → outsize ≤ maxSize + 8)
    (Hpos : outpos < outsize) (Hp32 : outpos ≤ 2 ^ 30) :
    (maxSize ≠ 0 ∧ checkGrow maxSize outpos outsize = none) ∨
    (∃ os, checkGrow maxSize outpos outsize = some os ∧
      ((maxSize ≠ 0 ∧ os = maxSize + 8) ∨ 8192 ≤ os) ∧
      (maxSize ≠ 0 → os ≤ maxSize + 8) ∧
      outpos + 7 < os) := by
  simp only [checkGrow, max_op_size_val]
  by_cases htrig : outpos ≥ outsize - 7
  · rw [if_pos htrig]
    have hnw : outsize * 3 % 2 ^ 32 = outsize * 3 := Nat.mod_eq_of_lt (by omega)
    rw [hnw]
    by_cases hfail : maxSize ≠ 0 ∧ outpos > maxSize
    · left
      exact ⟨hfail.1, by rw [if_pos hfail]⟩
    · right
      rw [if_neg hfail]
      by_cases hclamp : maxSize ≠ 0 ∧ outsize * 3 / 2 ≥ maxSize
      · rw [if_pos hclamp]
        have hm := hclamp.1
        have hmod : (maxSize + 7 + 1) % 2 ^ 32 = maxSize + 7 + 1 :=
          Nat.mod_eq_of_lt (by omega)
        rw [hmod]
        refine ⟨maxSize + 7 + 1, rfl, Or.inl ⟨hm, by omega⟩, fun _ => by omega, by omega⟩
      · rw [if_neg hclamp]
        rcases Hsz with ⟨hm, hsz⟩ | hsz
        · exfalso
          omega
        · refine ⟨outsize * 3 / 2, rfl, Or.inr (by omega), fun hm => by omega, by omega⟩
  · rw [if_neg htrig]
    right
    refine ⟨outsize, rfl, Hsz, Hcap, ?_⟩
    rcases Hsz with ⟨hm, hsz⟩ | hsz <;> omega

/-- Unfolding of the loop at the end of the target. -/
theorem encodeLoop_term (R T : List Nat) (bdf : BDFile)
    (max_size fuel pos : Nat) (out : List Nat) (inscnt outsize moff0 : Nat)
    (ok : Bool) (h : ¬ pos < T.length) :
    encodeLoop R T bdf max_size fuel pos out inscnt outsize moff0 ok =
      if inscnt ≠ 0 then
        (ok && decide (out.length - inscnt - 1 < outsize),
         some (out.set (out.length - inscnt - 1) inscnt))
      else (ok, some out) := by
  rw [encodeLoop.eq_def, if_neg h]

/-- The empty opcode stream parses. -/
theorem parseOps_nil : parseOps [] = some [] := rfl

/-! ## The main loop invariant -/

/-- The loop's postcondition at the end of the target: the pending literal
run is flushed, and everything after `front` is a single well-formed
INSERT (or nothing). -/
theorem encodeLoop_spec_term (R T : List Nat) (bdf : BDFile) (maxSize : Nat)
    (fuel pos inscnt : Nat) (front out : List Nat) (outsize moff0 : Nat) (ok : Bool)
    (hterm : ¬ pos < T.length)
    (hpos : pos ≤ T.length)
    (hip : inscnt ≤ pos)
    (hi126 : inscnt ≤ 126)
    (hout : out = front ++ (if inscnt = 0 then ([] : List Nat)
      else 0 :: ((T.drop (pos - inscnt)).take inscnt).map (· % 256)))
    (hcap : maxSize ≠ 0 → outsize ≤ maxSize + 8)
    (hin : out.length + 7 < outsize) :
    (maxSize = 0 → (encodeLoop R T bdf maxSize fuel pos out inscnt outsize moff0 ok).1 = ok) ∧
    ((maxSize ≠ 0 ∧ (encodeLoop R T bdf maxSize fuel pos out inscnt outsize moff0 ok).2 = none) ∨
      (∃ rest,
        (encodeLoop R T bdf maxSize fuel pos out inscnt outsize moff0 ok).2 = some (front ++ rest) ∧
        rest.length ≤ (if inscnt = 0 then 0 else inscnt + 1) + 2 * (T.length - pos) ∧
        (maxSize ≠ 0 → front.length + rest.length ≤ maxSize + 8) ∧
        (R.length ≤ 2 ^ 32 →
          ∃ ops, parseOps rest = some ops ∧
            (∀ off sz, DOp.cpy off sz ∈ ops → off + sz ≤ R.length) ∧
            ((∀ b ∈ T, b < 256) → runOps R ops = some (T.drop (pos - inscnt)))))) := by
  have hpe : pos = T.length := by omega
  rw [encodeLoop_term R T bdf maxSize fuel pos out inscnt outsize moff0 ok hterm]
  by_cases h0 : inscnt = 0
  · rw [if_neg (by omega : ¬ inscnt ≠ 0)]
    rw [if_pos h0, List.append_nil] at hout
    constructor
    · intro _
      rfl
    · right
      refine ⟨[], by rw [hout]; simp, by simp [h0],
        fun hm => by have h1 := hcap hm; rw [hout] at hin; simp; omega, ?_⟩
      intro _
      refine ⟨[], parseOps_nil, by intro off sz h; simp at h, ?_⟩
      intro _
      simp [runOps, h0, hpe]
  · rw [if_pos h0]
    rw [if_neg h0] at hout
    have hli : (((T.drop (pos - inscnt)).take inscnt).map (· % 256)).length = inscnt := by
      rw [List.length_map]
      exact take_len T _ _ (by omega)
    have houtlen : out.length = front.length + inscnt + 1 := by
      rw [hout]
      simp
      omega
    have hidx : out.length - inscnt - 1 = front.length := by omega
    constructor
    · intro _
      rw [decide_eq_true (show out.length - inscnt - 1 < outsize by omega), Bool.and_true]
    · right
      refine ⟨inscnt :: ((T.drop (pos - inscnt)).take inscnt).map (· % 256), ?_, ?_, ?_, ?_⟩
      · rw [hidx, hout, set_append_cons]
      · simp [hli, h0]
        omega
      · intro hm
        have := hcap hm
        simp [hli]
        omega
      · intro _
        refine ⟨[DOp.ins (((T.drop (pos - inscnt)).take inscnt).map (· % 256))], ?_, ?_, ?_⟩
        · have hp := parseOps_insert inscnt
            (((T.drop (pos - inscnt)).take inscnt).map (· % 256)) [] []
            (by omega) (by omega) hli parseOps_nil
          simpa using hp
        · intro off sz h
          simp at h
        · intro HT
          simp only [runOps]
          rw [map_mod_slice T HT]
          have htk : (T.drop (pos - inscnt)).take inscnt = T.drop (pos - inscnt) := by
            apply List.take_of_length_le
            simp
            omega
          simp [htk]

set_option maxHeartbeats 1000000 in
/-- The main loop invariant: from a state whose buffer is a completed
prefix `front` followed by the pending literal run, the loop either fails
under a nonzero cap, or appends a byte sequence `rest` that (a) parses as
a well-formed opcode stream whose COPYs stay inside the reference and
whose execution reconstructs the remaining target (pending run included),
(b) never costs more than two output bytes per target byte, (c) respects
the cap, and (d) keeps every store below the current capacity.  The last
hypothesis keeps the written length below `2^30` throughout, so at every
growth step the 32-bit product `outsize * 3` stays below `2^32` and the
modelled truncation never engages — the `Nat` capacity arithmetic
coincides with the C `unsigned int` arithmetic. -/
theorem encodeLoop_spec (R T : List Nat) (bdf : BDFile) (maxSize : Nat) :
    ∀ (fuel pos inscnt : Nat) (front out : List Nat) (outsize moff0 : Nat) (ok : Bool),
      T.length - pos ≤ fuel →
      pos ≤ T.length →
      inscnt ≤ pos →
      inscnt ≤ 126 →
      out = front ++ (if inscnt = 0 then ([] : List Nat)
        else 0 :: ((T.drop (pos - inscnt)).take inscnt).map (· % 256)) →
      ((maxSize ≠ 0 ∧ outsize = maxSize + 8) ∨ 8192 ≤ outsize) →
      (maxSize ≠ 0 → outsize ≤ maxSize + 8) →
      out.length + 7 < outsize →
      out.length + 2 * (T.length - pos) ≤ 2 ^ 30 →
      (maxSize = 0 → (encodeLoop R T bdf maxSize fuel pos out inscnt outsize moff0 ok).1 = ok) ∧
      ((maxSize ≠ 0 ∧ (encodeLoop R T bdf maxSize fuel pos out inscnt outsize moff0 ok).2 = none) ∨
        (∃ rest,
          (encodeLoop R T bdf maxSize fuel pos out inscnt outsize moff0 ok).2 = some (front ++ rest) ∧
          rest.length ≤ (if inscnt = 0 then 0 else inscnt + 1) + 2 * (T.length - pos) ∧
          (maxSize ≠ 0 → front.length + rest.length ≤ maxSize + 8) ∧
          (R.length ≤ 2 ^ 32 →
            ∃ ops, parseOps rest = some ops ∧
              (∀ off sz, DOp.cpy off sz ∈ ops → off + sz ≤ R.length) ∧
              ((∀ b ∈ T, b < 256) → runOps R ops = some (T.drop (pos - inscnt)))))) := by
  intro fuel
  induction fuel with
  | zero =>
    intro pos inscnt front out outsize moff0 ok hfuel hpos hip hi126 hout hsz hcap hin hsm
    exact encodeLoop_spec_term R T bdf maxSize 0 pos inscnt front out outsize moff0 ok
      (by omega) hpos hip hi126 hout hcap hin
  | succ fuel ih =>
    intro pos inscnt front out outsize moff0 ok hfuel hpos hip hi126 hout hsz hcap hin hsm
    by_cases hlt : pos < T.length
    case neg =>
      exact encodeLoop_spec_term R T bdf maxSize (fuel + 1) pos inscnt front out outsize
        moff0 ok hlt hpos hip hi126 hout hcap hin
    case pos =>
    conv_lhs => rw [encodeLoop.eq_def]
    conv_rhs => rw [encodeLoop.eq_def]
    rw [if_pos hlt]
    dsimp only
    set dfp := adler32 0 ((T.drop pos).take (min (T.length - pos) 16)) with hdfp
    set chain := bdf.fphash (hashv dfp bdf.fphbits) with hchain
    set mm := walkChain R T pos dfp chain (0, moff0) with hmmdef
    have hw := walkChain_spec R T pos dfp chain (0, moff0) (by intro h; exact absurd rfl h)
    rw [← hmmdef] at hw
    by_cases hlit : literalCond mm.1 mm.2
    · -- INSERT path
      rw [if_pos hlit]
      have hok1 : (if inscnt = 0 then out ++ [0] else out).length < outsize := by
        by_cases hi0 : inscnt = 0 <;> simp [hi0] <;> omega
      rw [decide_eq_true hok1, Bool.and_true]
      have hout2 : ((if inscnt = 0 then out ++ [0] else out) ++ [T.getD pos 0 % 256])
          = front ++ 0 :: ((T.drop (pos - inscnt)).take (inscnt + 1)).map (· % 256) := by
        by_cases hi0 : inscnt = 0
        · rw [if_pos hi0, hout, if_pos hi0, List.append_nil, hi0]
          have hsl : (T.drop (pos - 0)).take (0 + 1) = [T.getD pos 0] := by
            have := take_snoc T (pos - 0) 0 (by omega)
            rw [show pos - 0 + 0 = pos by omega] at this
            simpa using this
          rw [hsl]
          simp
        · rw [if_neg hi0, hout, if_neg hi0]
          have hsl : (T.drop (pos - inscnt)).take (inscnt + 1)
              = (T.drop (pos - inscnt)).take inscnt ++ [T.getD pos 0] := by
            have := take_snoc T (pos - inscnt) inscnt (by omega)
            rw [show pos - inscnt + inscnt = pos by omega] at this
            exact this
          rw [hsl, List.map_append]
          simp
      rw [hout2]
      have hl' : (((T.drop (pos - inscnt)).take (inscnt + 1)).map (· % 256)).length
          = inscnt + 1 := by
        rw [List.length_map]
        exact take_len T _ _ (by omega)
      have hfl : (front ++ 0 :: ((T.drop (pos - inscnt)).take (inscnt + 1)).map (· % 256)).length
          = front.length + inscnt + 2 := by
        simp
        omega
      have houtlen : front.length + (if inscnt = 0 then 0 else inscnt + 1) = out.length := by
        rw [hout]
        by_cases hi0 : inscnt = 0
        · simp [hi0]
        · simp [hi0]
          omega
      by_cases h127 : inscnt + 1 = 127
      · -- run reached 0x7f: backfill and reset
        rw [if_pos h127]
        have hidx : (front ++ 0 :: ((T.drop (pos - inscnt)).take (inscnt + 1)).map (· % 256)).length
            - (inscnt + 1) - 1 = front.length := by
          rw [hfl]
          omega
        have hokbf : (front ++ 0 :: ((T.drop (pos - inscnt)).take (inscnt + 1)).map (· % 256)).length
            - (inscnt + 1) - 1 < outsize := by
          rw [hidx]
          by_cases hi0 : inscnt = 0 <;> simp [hi0] at houtlen <;> omega
        rw [decide_eq_true hokbf, Bool.and_true, hidx, set_append_cons]
        rcases checkGrow_cases maxSize
            ((front ++ (inscnt + 1) :: ((T.drop (pos - inscnt)).take (inscnt + 1)).map (· % 256)).length)
            outsize hsz hcap
            (by simp [hl']; by_cases hi0 : inscnt = 0 <;> simp [hi0] at houtlen <;> omega)
            (by simp [hl']; by_cases hi0 : inscnt = 0 <;> simp [hi0] at houtlen <;> omega)
          with ⟨hm, hnone⟩ | ⟨os, hsome, hsz', hcap', hin'⟩
        · rw [hnone]
          exact ⟨fun _ => rfl, Or.inl ⟨hm, rfl⟩⟩
        · rw [hsome]
          dsimp only
          have IH := ih (pos + 1) 0
            (front ++ (inscnt + 1) :: ((T.drop (pos - inscnt)).take (inscnt + 1)).map (· % 256))
            (front ++ (inscnt + 1) :: ((T.drop (pos - inscnt)).take (inscnt + 1)).map (· % 256))
            os mm.2 ok (by omega) (by omega) (by omega) (by omega) (by simp) hsz' hcap'
            (by exact hin')
            (by simp [hl']; by_cases hi0 : inscnt = 0 <;> simp [hi0] at houtlen <;> omega)
          obtain ⟨IHflag, IHres⟩ := IH
          refine ⟨IHflag, ?_⟩
          rcases IHres with ⟨hm, hnone⟩ | ⟨rest', hres, hlenr, hcapr, hparser⟩
          · exact Or.inl ⟨hm, hnone⟩
          · right
            refine ⟨((inscnt + 1) :: ((T.drop (pos - inscnt)).take (inscnt + 1)).map (· % 256)) ++ rest',
              ?_, ?_, ?_, ?_⟩
            · rw [hres]
              simp
            · simp at hlenr
              simp [hl', show ¬ inscnt = 0 by omega]
              omega
            · intro hm
              have := hcapr hm
              simp [hl'] at this ⊢
              omega
            · intro hR
              obtain ⟨ops, hops, hbounds, hrun⟩ := hparser hR
              refine ⟨DOp.ins (((T.drop (pos - inscnt)).take (inscnt + 1)).map (· % 256)) :: ops,
                ?_, ?_, ?_⟩
              · exact parseOps_insert (inscnt + 1)
                  (((T.drop (pos - inscnt)).take (inscnt + 1)).map (· % 256)) rest' ops
                  (by omega) (by omega) hl' hops
              · intro off sz hmem
                rcases List.mem_cons.1 hmem with heq | htail
                · exact absurd heq (by simp)
                · exact hbounds off sz htail
              · intro HT
                have hrun' := hrun HT
                simp only [runOps]
                rw [hrun']
                dsimp only
                rw [map_mod_slice T HT]
                have hglue := take_glue T (pos - inscnt) (inscnt + 1)
                rw [show pos - inscnt + (inscnt + 1) = pos + 1 by omega] at hglue
                rw [show pos + 1 - 0 = pos + 1 by omega, hglue]
      · -- plain literal
        rw [if_neg h127]
        rcases checkGrow_cases maxSize
            ((front ++ 0 :: ((T.drop (pos - inscnt)).take (inscnt + 1)).map (· % 256)).length)
            outsize hsz hcap
            (by rw [hfl]; by_cases hi0 : inscnt = 0 <;> simp [hi0] at houtlen <;> omega)
            (by rw [hfl]; by_cases hi0 : inscnt = 0 <;> simp [hi0] at houtlen <;> omega)
          with ⟨hm, hnone⟩ | ⟨os, hsome, hsz', hcap', hin'⟩
        · rw [hnone]
          exact ⟨fun _ => rfl, Or.inl ⟨hm, rfl⟩⟩
        · rw [hsome]
          dsimp only
          have harg : pos + 1 - (inscnt + 1) = pos - inscnt := by omega
          have IH := ih (pos + 1) (inscnt + 1) front
            (front ++ 0 :: ((T.drop (pos - inscnt)).take (inscnt + 1)).map (· % 256))
            os mm.2 ok (by omega) (by omega) (by omega) (by omega)
            (by rw [if_neg (by omega : ¬ inscnt + 1 = 0), harg]) hsz' hcap' (by exact hin')
            (by rw [hfl]; by_cases hi0 : inscnt = 0 <;> simp [hi0] at houtlen <;> omega)
          obtain ⟨IHflag, IHres⟩ := IH
          refine ⟨IHflag, ?_⟩
          rcases IHres with ⟨hm, hnone⟩ | ⟨rest, hres, hlenr, hcapr, hparser⟩
          · exact Or.inl ⟨hm, hnone⟩
          · right
            refine ⟨rest, hres,
              by simp at hlenr; by_cases hq : inscnt = 0 <;> simp [hq] <;> omega, hcapr, ?_⟩
            intro hR
            obtain ⟨ops, hops, hbounds, hrun⟩ := hparser hR
            refine ⟨ops, hops, hbounds, ?_⟩
            intro HT
            have := hrun HT
            rw [harg] at this
            exact this
    · -- COPY path
      rw [if_neg hlit]
      have hm0 : mm.1 ≠ 0 := fun h => hlit (Or.inl h)
      have hcost : COPYOP_SIZE mm.2 mm.1 ≤ mm.1 := by
        rcases Nat.lt_or_ge mm.1 (COPYOP_SIZE mm.2 mm.1) with hc | hc
        · exact absurd (Or.inr hc) hlit
        · exact hc
      obtain ⟨hmatch, hboundR, hremT, hclamp⟩ := hw hm0
      have hcb : (copyOp mm.2 mm.1).length ≤ mm.1 := by
        rw [copyOp_length]
        exact hcost
      have hcb7 : (copyOp mm.2 mm.1).length ≤ 7 := copyOp_length_le mm.2 mm.1
      by_cases hi0 : inscnt = 0
      · -- no pending run
        have hcond : ¬ inscnt ≠ 0 := by omega
        rw [if_neg hcond, if_neg hcond]
        rw [if_pos hi0, List.append_nil] at hout
        rw [hout]
        rw [decide_eq_true (show front.length + (copyOp mm.2 mm.1).length ≤ outsize by
          have : out.length = front.length := by rw [hout]
          omega), Bool.and_true]
        rcases checkGrow_cases maxSize ((front ++ copyOp mm.2 mm.1).length) outsize hsz hcap
            (by simp; have : out.length = front.length := by rw [hout]
                omega)
            (by have hofl : out.length = front.length := by rw [hout]
                simp
                omega)
          with ⟨hm, hnone⟩ | ⟨os, hsome, hsz', hcap', hin'⟩
        · rw [hnone]
          exact ⟨fun _ => rfl, Or.inl ⟨hm, rfl⟩⟩
        · rw [hsome]
          dsimp only
          have IH := ih (pos + mm.1) 0 (front ++ copyOp mm.2 mm.1) (front ++ copyOp mm.2 mm.1)
            os mm.2 ok (by omega) (by omega) (by omega) (by omega) (by simp) hsz' hcap'
            (by exact hin')
            (by have hofl : out.length = front.length := by rw [hout]
                simp
                omega)
          obtain ⟨IHflag, IHres⟩ := IH
          refine ⟨IHflag, ?_⟩
          rcases IHres with ⟨hm, hnone⟩ | ⟨rest', hres, hlenr, hcapr, hparser⟩
          · exact Or.inl ⟨hm, hnone⟩
          · right
            refine ⟨copyOp mm.2 mm.1 ++ rest', ?_, ?_, ?_, ?_⟩
            · rw [hres]
              simp
            · simp at hlenr
              simp [hi0]
              omega
            · intro hm
              have := hcapr hm
              simp at this ⊢
              omega
            · intro hR
              obtain ⟨ops, hops, hbounds, hrun⟩ := hparser hR
              have hmo32 : mm.2 < 2 ^ 32 := by omega
              refine ⟨DOp.cpy mm.2 mm.1 :: ops, ?_, ?_, ?_⟩
              · exact parseOps_copy mm.2 mm.1 rest' ops hmo32 (by omega) hclamp hops
              · intro off sz hmem
                rcases List.mem_cons.1 hmem with heq | htail
                · simp only [DOp.cpy.injEq] at heq
                  rw [heq.1, heq.2]
                  exact hboundR
                · exact hbounds off sz htail
              · intro HT
                have hrun' := hrun HT
                simp only [runOps]
                rw [if_pos hboundR, hrun']
                dsimp only
                rw [hmatch, show pos + mm.1 - 0 = pos + mm.1 by omega,
                  take_glue T pos mm.1, show pos - inscnt = pos by omega]
      · -- pending run is flushed first
        rw [if_pos hi0, if_pos hi0]
        rw [if_neg hi0] at hout
        have hli : (((T.drop (pos - inscnt)).take inscnt).map (· % 256)).length = inscnt := by
          rw [List.length_map]
          exact take_len T _ _ (by omega)
        have houtlen : out.length = front.length + inscnt + 1 := by
          rw [hout]
          simp
          omega
        have hidx : out.length - inscnt - 1 = front.length := by omega
        rw [decide_eq_true (show out.length - inscnt - 1 < outsize by omega), Bool.and_true]
        rw [hidx, hout, set_append_cons]
        rw [decide_eq_true (show (front ++ inscnt :: ((T.drop (pos - inscnt)).take inscnt).map (· % 256)).length
            + (copyOp mm.2 mm.1).length ≤ outsize by simp [hli]; omega), Bool.and_true]
        rw [List.append_assoc]
        rcases checkGrow_cases maxSize
            ((front ++ ((inscnt :: ((T.drop (pos - inscnt)).take inscnt).map (· % 256)) ++ copyOp mm.2 mm.1)).length)
            outsize hsz hcap (by simp [hli]; omega) (by simp [hli]; omega)
          with ⟨hm, hnone⟩ | ⟨os, hsome, hsz', hcap', hin'⟩
        · rw [hnone]
          exact ⟨fun _ => rfl, Or.inl ⟨hm, rfl⟩⟩
        · rw [hsome]
          dsimp only
          have IH := ih (pos + mm.1) 0
            (front ++ ((inscnt :: ((T.drop (pos - inscnt)).take inscnt).map (· % 256)) ++ copyOp mm.2 mm.1))
            (front ++ ((inscnt :: ((T.drop (pos - inscnt)).take inscnt).map (· % 256)) ++ copyOp mm.2 mm.1))
            os mm.2 ok (by omega) (by omega) (by omega) (by omega) (by simp) hsz' hcap'
            (by exact hin')
            (by simp [hli]; omega)
          obtain ⟨IHflag, IHres⟩ := IH
          refine ⟨IHflag, ?_⟩
          rcases IHres with ⟨hm, hnone⟩ | ⟨rest', hres, hlenr, hcapr, hparser⟩
          · exact Or.inl ⟨hm, hnone⟩
          · right
            refine ⟨((inscnt :: ((T.drop (pos - inscnt)).take inscnt).map (· % 256)) ++ copyOp mm.2 mm.1) ++ rest',
              ?_, ?_, ?_, ?_⟩
            · rw [hres]
              simp
            · simp at hlenr
              simp [hli, hi0]
              omega
            · intro hm
              have := hcapr hm
              simp [hli] at this ⊢
              omega
            · intro hR
              obtain ⟨ops, hops, hbounds, hrun⟩ := hparser hR
              have hmo32 : mm.2 < 2 ^ 32 := by omega
              have hpc := parseOps_copy mm.2 mm.1 rest' ops hmo32 (by omega) hclamp hops
              have hpi := parseOps_insert inscnt
                (((T.drop (pos - inscnt)).take inscnt).map (· % 256))
                (copyOp mm.2 mm.1 ++ rest') (DOp.cpy mm.2 mm.1 :: ops)
                (by omega) (by omega) hli hpc
              refine ⟨DOp.ins (((T.drop (pos - inscnt)).take inscnt).map (· % 256))
                :: DOp.cpy mm.2 mm.1 :: ops, ?_, ?_, ?_⟩
              · rw [show ((inscnt :: ((T.drop (pos - inscnt)).take inscnt).map (· % 256)) ++ copyOp mm.2 mm.1) ++ rest'
                    = (inscnt :: ((T.drop (pos - inscnt)).take inscnt).map (· % 256)) ++ (copyOp mm.2 mm.1 ++ rest')
                  by simp]
                exact hpi
              · intro off sz hmem
                rcases List.mem_cons.1 hmem with heq | htail
                · exact absurd heq (by simp)
                · rcases List.mem_cons.1 htail with heq | htail2
                  · simp only [DOp.cpy.injEq] at heq
                    rw [heq.1, heq.2]
                    exact hboundR
                  · exact hbounds off sz htail2
              · intro HT
                have hrun' := hrun HT
                simp only [runOps]
                rw [if_pos hboundR, hrun']
                dsimp only
                rw [hmatch, show pos + mm.1 - 0 = pos + mm.1 by omega, take_glue T pos mm.1,
                  map_mod_slice T HT]
                have hglue := take_glue T (pos - inscnt) inscnt
                rw [show pos - inscnt + inscnt = pos by omega] at hglue
                rw [hglue]

/-! ## Failure and flag propagation in the loop -/

/-- The growth check fails as soon as the write position exceeds a
nonzero cap whose clamped capacity is already in force. -/
theorem checkGrow_none (maxSize outpos outsize : Nat) (hm : maxSize ≠ 0)
    (hgt : outpos > maxSize) (hsz : outsize = maxSize + 8) :
    checkGrow maxSize outpos outsize = none := by
  unfold checkGrow
  rw [max_op_size_val, if_pos (by omega : outpos ≥ outsize - 7)]
  dsimp only
  rw [if_pos ⟨hm, hgt⟩]

/-- A COPY opcode is at least one byte long. -/
theorem copyOp_length_pos (moff msize : Nat) : 1 ≤ (copyOp moff msize).length := by
  rw [copyOp_length]
  exact copyop_size_pos moff msize

/-- Once the buffer is already longer than a nonzero cap (with the clamped
capacity in force) and target bytes remain, the loop fails: every branch
writes at least one byte and then trips the growth check. -/
theorem encodeLoop_fail (R T : List Nat) (bdf : BDFile) (maxSize fuel pos : Nat)
    (out : List Nat) (inscnt outsize moff0 : Nat) (ok : Bool)
    (hlt : pos < T.length) (hm : maxSize ≠ 0) (hbig : out.length > maxSize)
    (hsz : outsize = maxSize + 8) :
    (encodeLoop R T bdf maxSize fuel pos out inscnt outsize moff0 ok).2 = none := by
  rw [encodeLoop.eq_def, if_pos hlt]
  cases fuel with
  | zero => rfl
  | succ fuel =>
    dsimp only
    set dfp := adler32 0 ((T.drop pos).take (min (T.length - pos) 16)) with hdfp
    set chain := bdf.fphash (hashv dfp bdf.fphbits) with hchain
    set mm := walkChain R T pos dfp chain (0, moff0) with hmmdef
    by_cases hlit : literalCond mm.1 mm.2
    · rw [if_pos hlit]
      set out1 := (if inscnt = 0 then out ++ [0] else out) with hout1
      have hl1 : out.length ≤ out1.length := by
        rw [hout1]
        by_cases hi0 : inscnt = 0 <;> simp [hi0]
      by_cases h127 : inscnt + 1 = 127
      · rw [if_pos h127]
        rw [checkGrow_none maxSize
          ((out1 ++ [T.getD pos 0 % 256]).set
            ((out1 ++ [T.getD pos 0 % 256]).length - (inscnt + 1) - 1) (inscnt + 1)).length
          outsize hm (by simp; omega) hsz]
      · rw [if_neg h127]
        rw [checkGrow_none maxSize (out1 ++ [T.getD pos 0 % 256]).length outsize hm
          (by simp; omega) hsz]
    · rw [if_neg hlit]
      set out1 := (if inscnt ≠ 0 then out.set (out.length - inscnt - 1) inscnt else out)
        with hout1
      have hl1 : out1.length = out.length := by
        rw [hout1]
        by_cases hi0 : inscnt ≠ 0 <;> simp [hi0]
      have hcb := copyOp_length_pos mm.2 mm.1
      rw [checkGrow_none maxSize (out1 ++ copyOp mm.2 mm.1).length outsize hm
        (by simp; omega) hsz]

/-- A store-bounds flag that is already false stays false through the
loop. -/
theorem encodeLoop_flag_mono (R T : List Nat) (bdf : BDFile) (maxSize : Nat) :
    ∀ (fuel pos : Nat) (out : List Nat) (inscnt outsize moff0 : Nat) (ok : Bool),
      ok = false →
      (encodeLoop R T bdf maxSize fuel pos out inscnt outsize moff0 ok).1 = false := by
  intro fuel
  induction fuel with
  | zero =>
    intro pos out inscnt outsize moff0 ok hok
    rw [encodeLoop.eq_def]
    by_cases hlt : pos < T.length
    · rw [if_pos hlt]
      exact hok
    · rw [if_neg hlt]
      by_cases hi : inscnt ≠ 0
      · rw [if_pos hi]
        rw [hok, Bool.false_and]
      · rw [if_neg hi]
        exact hok
  | succ fuel ih =>
    intro pos out inscnt outsize moff0 ok hok
    rw [encodeLoop.eq_def]
    by_cases hlt : pos < T.length
    case neg =>
      rw [if_neg hlt]
      by_cases hi : inscnt ≠ 0
      · rw [if_pos hi]
        rw [hok, Bool.false_and]
      · rw [if_neg hi]
        exact hok
    case pos =>
    rw [if_pos hlt]
    dsimp only
    set dfp := adler32 0 ((T.drop pos).take (min (T.length - pos) 16)) with hdfp
    set chain := bdf.fphash (hashv dfp bdf.fphbits) with hchain
    set mm := walkChain R T pos dfp chain (0, moff0) with hmmdef
    by_cases hlit : literalCond mm.1 mm.2
    · rw [if_pos hlit]
      set out1 := (if inscnt = 0 then out ++ [0] else out) with hout1
      by_cases h127 : inscnt + 1 = 127
      · rw [if_pos h127]
        cases hcg : checkGrow maxSize
            ((out1 ++ [T.getD pos 0 % 256]).set
              ((out1 ++ [T.getD pos 0 % 256]).length - (inscnt + 1) - 1) (inscnt + 1)).length
            outsize with
        | none => simp [hok]
        | some os => exact ih _ _ _ _ _ _ (by simp [hok])
      · rw [if_neg h127]
        cases hcg : checkGrow maxSize (out1 ++ [T.getD pos 0 % 256]).length outsize with
        | none => simp [hok]
        | some os => exact ih _ _ _ _ _ _ (by simp [hok])
    · rw [if_neg hlit]
      set out1 := (if inscnt ≠ 0 then out.set (out.length - inscnt - 1) inscnt else out)
        with hout1
      cases hcg : checkGrow maxSize (out1 ++ copyOp mm.2 mm.1).length outsize with
      | none => simp [hok]
      | some os => exact ih _ _ _ _ _ _ (by simp [hok])

/-! ## Assembling `diff_delta` from the header writer and the loop -/

/-- Header integers of machine-word values take at most ten bytes. -/
theorem lebBytes_le_ten (v : Nat) (hv : v < 2 ^ 64) : (lebBytes v).length ≤ 10 := by
  refine lebBytes_length_le v 10 (by norm_num) ?_
  have h : (2 : Nat) ^ 64 ≤ 2 ^ (7 * 10) := by norm_num
  omega

/-- Lower bound on the header length: a still-unemitted value of at
least `128^k` (scaled) forces at least `k + 1` bytes. -/
theorem lebRun_length_ge : ∀ (fuel k w b : Nat), k ≤ fuel → 128 ^ k ≤ w * 128 →
    k + 1 ≤ (lebRun fuel w b).length := by
  intro fuel
  induction fuel with
  | zero =>
    intro k w b hk _
    rw [show k = 0 by omega]
    exact lebRun_pos 0 w b
  | succ fuel ih =>
    intro k w b hk hw
    cases k with
    | zero => exact lebRun_pos (fuel + 1) w b
    | succ k =>
      have h2 : 128 ^ k ≤ w := by
        have h3 : 128 ^ k * 128 ≤ w * 128 := by
          rw [← pow_succ]
          exact hw
        exact Nat.le_of_mul_le_mul_right h3 (by norm_num)
      have hw0 : ¬ w = 0 := by
        have hp : 0 < (128 : Nat) ^ k := pow_pos (by norm_num) _
        omega
      simp only [lebRun]
      rw [if_neg hw0]
      simp only [List.length_cons]
      cases k with
      | zero =>
        have := lebRun_pos fuel (w / 128) (w % 256)
        omega
      | succ k2 =>
        have hstep : 128 ^ k2 ≤ w / 128 := by
          have h4 : 128 ^ (k2 + 1) / 128 ≤ w / 128 := Nat.div_le_div_right h2
          rwa [pow_succ, Nat.mul_div_cancel _ (by norm_num : (0 : Nat) < 128)] at h4
        have hnext : 128 ^ (k2 + 1) ≤ w / 128 * 128 := by
          rw [pow_succ]
          omega
        have := ih (k2 + 1) (w / 128) (w % 256) (by omega) hnext
        omega

/-- On nonempty inputs, `diff_delta` is the loop started on the two header
integers, with the store flag recording whether the header fit. -/
theorem diff_delta_impl_eq (R T : List Nat) (maxSize : Nat)
    (hR : R.length ≠ 0) (hT : T.length ≠ 0) :
    diff_delta_impl R T maxSize =
      encodeLoop R T (delta_prepare R) maxSize T.length 0
        (lebBytes R.length ++ lebBytes T.length) 0
        (if maxSize ≠ 0 ∧ 8192 ≥ maxSize then maxSize + MAX_OP_SIZE + 1 else 8192) 0
        (decide ((lebBytes R.length).length + (lebBytes T.length).length
          ≤ if maxSize ≠ 0 ∧ 8192 ≥ maxSize then maxSize + MAX_OP_SIZE + 1 else 8192)) := by
  unfold diff_delta_impl
  rw [if_neg (by omega : ¬ (R.length = 0 ∨ T.length = 0))]
  dsimp only
  simp only [emitLeb_spec]
  dsimp only
  simp only [List.nil_append, List.length_nil, Nat.zero_add, Bool.true_and]
  have hfuse : ∀ a b c : Nat,
      (decide (a ≤ c) && decide (a + b ≤ c)) = decide (a + b ≤ c) := by
    intro a b c
    rcases le_or_lt (a + b) c with h | h
    · rw [decide_eq_true h, decide_eq_true (by omega : a ≤ c), Bool.true_and]
    · rw [decide_eq_false (by omega : ¬ a + b ≤ c), Bool.and_false]
  rw [hfuse]

/-- When a nonzero cap is smaller than the header itself, the call fails. -/
theorem diff_delta_hdr_fail (R T : List Nat) (maxSize : Nat)
    (hR : R.length ≠ 0) (hT : T.length ≠ 0) (hm : maxSize ≠ 0) (hm8 : maxSize ≤ 8192)
    (hbig : maxSize < (lebBytes R.length).length + (lebBytes T.length).length) :
    diff_delta R T maxSize = none := by
  unfold diff_delta
  rw [diff_delta_impl_eq R T maxSize hR hT]
  rw [if_pos (show maxSize ≠ 0 ∧ 8192 ≥ maxSize from ⟨hm, hm8⟩)]
  exact encodeLoop_fail R T (delta_prepare R) maxSize T.length 0
    (lebBytes R.length ++ lebBytes T.length) 0 (maxSize + MAX_OP_SIZE + 1) 0 _
    (by omega) hm (by simp; omega) (by have h7 := max_op_size_val; omega)

/-- Top-level case analysis for nonempty inputs whose header fits any
nonzero cap: either the call fails under the cap, or it returns the two
headers followed by an opcode stream that parses, stays inside the
reference, respects the cap and reconstructs the target. -/
theorem diff_delta_cases (R T : List Nat) (maxSize : Nat)
    (hR : R.length ≠ 0) (hT : T.length ≠ 0)
    (hR31 : R.length < 2 ^ 31) (hT28 : T.length ≤ 2 ^ 28)
    (hhdr : maxSize ≠ 0 →
      (lebBytes R.length).length + (lebBytes T.length).length ≤ maxSize) :
    (maxSize ≠ 0 ∧ diff_delta R T maxSize = none) ∨
    ∃ rest,
      diff_delta R T maxSize = some ((lebBytes R.length ++ lebBytes T.length) ++ rest) ∧
      rest.length ≤ 2 * T.length ∧
      (maxSize ≠ 0 → (lebBytes R.length).length + (lebBytes T.length).length + rest.length
        ≤ maxSize + 8) ∧
      (R.length ≤ 2 ^ 32 →
        ∃ ops, parseOps rest = some ops ∧
          (∀ off sz, DOp.cpy off sz ∈ ops → off + sz ≤ R.length) ∧
          ((∀ b ∈ T, b < 256) → runOps R ops = some T)) := by
  have hA := lebBytes_le_ten R.length (by omega)
  have hB := lebBytes_le_ten T.length (by omega)
  have h7 := max_op_size_val
  unfold diff_delta
  rw [diff_delta_impl_eq R T maxSize hR hT]
  set os := (if maxSize ≠ 0 ∧ 8192 ≥ maxSize then maxSize + MAX_OP_SIZE + 1 else 8192)
    with hos
  have hossz : (maxSize ≠ 0 ∧ os = maxSize + 8) ∨ 8192 ≤ os := by
    rw [hos]
    by_cases hc : maxSize ≠ 0 ∧ 8192 ≥ maxSize
    · rw [if_pos hc]
      exact Or.inl ⟨hc.1, by omega⟩
    · rw [if_neg hc]
      exact Or.inr le_rfl
  have hoscap : maxSize ≠ 0 → os ≤ maxSize + 8 := by
    intro hmz
    rw [hos]
    by_cases hc : 8192 ≥ maxSize
    · rw [if_pos ⟨hmz, hc⟩]
      omega
    · rw [if_neg (fun h => hc h.2)]
      omega
  have hosin : (lebBytes R.length ++ lebBytes T.length).length + 7 < os := by
    rw [hos]
    by_cases hc : maxSize ≠ 0 ∧ 8192 ≥ maxSize
    · rw [if_pos hc]
      have := hhdr hc.1
      simp
      omega
    · rw [if_neg hc]
      simp
      omega
  have main := encodeLoop_spec R T (delta_prepare R) maxSize T.length 0 0
    (lebBytes R.length ++ lebBytes T.length) (lebBytes R.length ++ lebBytes T.length)
    os 0
    (decide ((lebBytes R.length).length + (lebBytes T.length).length ≤ os))
    (by omega) (by omega) (by omega) (by omega) (by simp) hossz hoscap hosin
    (by simp; omega)
  rcases main.2 with ⟨hmz, hnone⟩ | ⟨rest, hres, hlen, hcap, hparse⟩
  · exact Or.inl ⟨hmz, hnone⟩
  · right
    refine ⟨rest, hres, ?_, ?_, ?_⟩
    · simp at hlen
      omega
    · intro hmz
      have := hcap hmz
      simp at this
      omega
    · intro hR32
      obtain ⟨ops, hops, hbounds, hrun⟩ := hparse hR32
      exact ⟨ops, hops, hbounds, fun HT => by simpa using hrun HT⟩

/-! ## The hash-table width chosen by `delta_prepare` -/

/-- Invariant of the `hashbits` loop: starting from `val = 2^bits` with
every smaller width already insufficient, it returns the first width
whose bucket count reaches `size` (or the 32-bit cap). -/
theorem hashbitsAux_spec (s : Nat) (hs : s ≤ 2 ^ 31) :
    ∀ (fuel bits : Nat), fuel + bits = 32 →
      (bits = 0 ∨ 2 ^ (bits - 1) < s) →
      (s ≤ 2 ^ hashbitsAux s fuel (2 ^ bits) bits ∧
        (hashbitsAux s fuel (2 ^ bits) bits = 0 ∨
          2 ^ (hashbitsAux s fuel (2 ^ bits) bits - 1) < s) ∧
        bits ≤ hashbitsAux s fuel (2 ^ bits) bits) := by
  intro fuel
  induction fuel with
  | zero =>
    intro bits hfb hprev
    simp only [hashbitsAux]
    refine ⟨?_, hprev, le_rfl⟩
    rw [show bits = 32 by omega]
    omega
  | succ fuel ih =>
    intro bits hfb hprev
    simp only [hashbitsAux]
    by_cases hv : 2 ^ bits < s
    · rw [if_pos hv]
      rw [show (2 : Nat) ^ bits * 2 = 2 ^ (bits + 1) from (pow_succ 2 bits).symm]
      have hrec := ih (bits + 1) (by omega) (Or.inr (by simpa using hv))
      exact ⟨hrec.1, hrec.2.1, le_trans (Nat.le_succ bits) hrec.2.2⟩
    · rw [if_neg hv]
      exact ⟨by omega, hprev, le_rfl⟩

/-- `hashbits s` is the smallest width `k ≥ 1` with `2^k ≥ s` (for the
sizes the 32-bit loop can meet). -/
theorem hashbits_spec (s : Nat) (h1 : 1 ≤ s) (hs : s ≤ 2 ^ 31) :
    1 ≤ hashbits s ∧ s ≤ 2 ^ hashbits s ∧
      (hashbits s = 1 ∨ ¬ s ≤ 2 ^ (hashbits s - 1)) := by
  have haux := hashbitsAux_spec s hs 32 0 rfl (Or.inl rfl)
  rw [pow_zero] at haux
  unfold hashbits
  dsimp only
  by_cases h0 : hashbitsAux s 32 1 0 = 0
  · rw [if_pos h0]
    have hs1 : s ≤ 1 := by
      have h := haux.1
      rw [h0, pow_zero] at h
      exact h
    exact ⟨le_rfl, by omega, Or.inl rfl⟩
  · rw [if_neg h0]
    refine ⟨by omega, haux.1, ?_⟩
    rcases haux.2.1 with hz | hlt
    · exact absurd hz h0
    · exact Or.inr (by omega)

/-! ## Bucket-chain order and the chain walk's tie policy -/

/-- Every position visited by the descending block walk is at most the
starting position. -/
theorem descWalk_le : ∀ (k s : Nat), ∀ x ∈ descWalk k s, x ≤ s := by
  intro k
  induction k with
  | zero =>
    intro s x hx
    simp only [descWalk, List.mem_singleton] at hx
    omega
  | succ k ih =>
    intro s x hx
    simp only [descWalk, List.mem_cons] at hx
    rcases hx with rfl | hx
    · exact le_rfl
    · have := ih (s - 16) x hx
      omega

/-- The descending block walk from a multiple of 16 visits strictly
decreasing positions. -/
theorem descWalk_sorted : ∀ (k s : Nat), s = 16 * k →
    List.Pairwise (· > ·) (descWalk k s) := by
  intro k
  induction k with
  | zero =>
    intro s _
    simp [descWalk]
  | succ k ih =>
    intro s hs
    simp only [descWalk]
    rw [List.pairwise_cons]
    refine ⟨?_, ih (s - 16) (by omega)⟩
    intro x hx
    have := descWalk_le k (s - 16) x hx
    omega

/-- Prepending records while the positions processed shrink keeps every
bucket chain in strictly ascending position order. -/
theorem bucket_sorted (buf : List Nat) (bits : Nat) :
    ∀ (l : List Nat) (tbl : Nat → List (Nat × Nat)),
      List.Pairwise (· > ·) l →
      (∀ j, List.Pairwise (fun a b => a.2 < b.2) (tbl j)) →
      (∀ j, ∀ e ∈ tbl j, ∀ q ∈ l, q < e.2) →
      ∀ j, List.Pairwise (fun a b => a.2 < b.2)
        ((l.foldl (fun t q => fun j' =>
          if j' = hashv (fpAt buf q) bits then (fpAt buf q, q) :: t j' else t j') tbl) j) := by
  intro l
  induction l with
  | nil =>
    intro tbl _ hst _ j
    exact hst j
  | cons p l ih =>
    intro tbl hpw hst hlt j
    rw [List.foldl_cons]
    refine ih _ (List.Pairwise.of_cons hpw) ?_ ?_ j
    · intro j'
      show List.Pairwise (fun a b => a.2 < b.2)
        (if j' = hashv (fpAt buf p) bits then (fpAt buf p, p) :: tbl j' else tbl j')
      by_cases hj : j' = hashv (fpAt buf p) bits
      · rw [if_pos hj, List.pairwise_cons]
        exact ⟨fun e he => hlt j' e he p (List.mem_cons_self p l), hst j'⟩
      · rw [if_neg hj]
        exact hst j'
    · intro j' e he q hq
      have he' : e ∈ (if j' = hashv (fpAt buf p) bits
          then (fpAt buf p, p) :: tbl j' else tbl j') := he
      by_cases hj : j' = hashv (fpAt buf p) bits
      · rw [if_pos hj] at he'
        rcases List.mem_cons.1 he' with rfl | hmem
        · exact (List.pairwise_cons.1 hpw).1 q hq
        · exact hlt j' e hmem q (List.mem_cons_of_mem p hq)
      · rw [if_neg hj] at he'
        exact hlt j' e he' q (List.mem_cons_of_mem p hq)

/-- Every bucket chain built by `delta_prepare` lists its records in
strictly ascending reference-position order. -/
theorem delta_prepare_sorted : ∀ (buf : List Nat) (j : Nat),
    List.Pairwise (fun a b => a.2 < b.2) ((delta_prepare buf).fphash j) := by
  intro buf j
  show List.Pairwise (fun a b => a.2 < b.2)
    (((descWalk (blockStart buf.length / 16) (blockStart buf.length)).foldl
      (fun t q => fun j' =>
        if j' = hashv (fpAt buf q) (hashbits (buf.length / 16 + 1))
        then (fpAt buf q, q) :: t j' else t j')
      (fun _ => [])) j)
  refine bucket_sorted buf (hashbits (buf.length / 16 + 1)) _ _ ?_
    (fun j' => List.Pairwise.nil) (fun j' e he => absurd he (List.not_mem_nil e)) j
  apply descWalk_sorted
  unfold blockStart
  by_cases hc : buf.length / 16 * 16 = buf.length
  · rw [if_pos hc]
    omega
  · rw [if_neg hc]
    omega

/-- The chain walk from an accumulator below the clamp either keeps it,
with every matching record's common run at most the accumulated length,
or returns a chain record beating every strictly earlier matching record:
the earliest offset wins all ties. -/
theorem walkChain_first (R T : List Nat) (pos f : Nat) :
    ∀ (l : List (Nat × Nat)) (m o : Nat), m < 65536 →
      (walkChain R T pos f l (m, o) = (m, o) ∧
        ∀ e ∈ l, e.1 = f → commonLen (R.drop e.2) (T.drop pos) ≤ m) ∨
      (∃ l1 e l2, l = l1 ++ e :: l2 ∧ e.1 = f ∧
        (walkChain R T pos f l (m, o)).2 = e.2 ∧
        (walkChain R T pos f l (m, o)).1
          = min (commonLen (R.drop e.2) (T.drop pos)) 65536 ∧
        m < (walkChain R T pos f l (m, o)).1 ∧
        ∀ e' ∈ l1, e'.1 = f →
          commonLen (R.drop e'.2) (T.drop pos) < (walkChain R T pos f l (m, o)).1) := by
  intro l
  induction l with
  | nil =>
    intro m o hm
    exact Or.inl ⟨rfl, by simp⟩
  | cons a rest ih =>
    intro m o hm
    obtain ⟨g, p⟩ := a
    simp only [walkChain]
    by_cases hg : g = f
    · rw [if_pos hg]
      by_cases hgt : commonLen (R.drop p) (T.drop pos) > m
      · rw [if_pos hgt]
        by_cases hbig : commonLen (R.drop p) (T.drop pos) ≥ 65536
        · rw [if_pos hbig]
          right
          refine ⟨[], (g, p), rest, by simp, hg, rfl, ?_, hm, by simp⟩
          exact (min_eq_right hbig).symm
        · rw [if_neg hbig]
          rcases ih (commonLen (R.drop p) (T.drop pos)) p (by omega) with
            ⟨heq, hall⟩ | ⟨l1, e, l2, hsplit, hef, h2, h1, hlt2, hprev⟩
          · right
            refine ⟨[], (g, p), rest, by simp, hg, ?_, ?_, ?_, by simp⟩
            · rw [heq]
            · rw [heq]
              exact (min_eq_left (by omega)).symm
            · rw [heq]
              exact hgt
          · right
            refine ⟨(g, p) :: l1, e, l2, by rw [hsplit]; rfl, hef, h2, h1, by omega, ?_⟩
            intro e' he' hf'
            rcases List.mem_cons.1 he' with rfl | hmem
            · exact hlt2
            · exact hprev e' hmem hf'
      · rw [if_neg hgt]
        rcases ih m o hm with
          ⟨heq, hall⟩ | ⟨l1, e, l2, hsplit, hef, h2, h1, hlt2, hprev⟩
        · left
          refine ⟨heq, ?_⟩
          intro e' he' hf'
          rcases List.mem_cons.1 he' with rfl | hmem
          · exact (by omega : commonLen (R.drop p) (T.drop pos) ≤ m)
          · exact hall e' hmem hf'
        · right
          refine ⟨(g, p) :: l1, e, l2, by rw [hsplit]; rfl, hef, h2, h1, hlt2, ?_⟩
          intro e' he' hf'
          rcases List.mem_cons.1 he' with rfl | hmem
          · exact lt_of_le_of_lt (show commonLen (R.drop p) (T.drop pos) ≤ m by omega) hlt2
          · exact hprev e' hmem hf'
    · rw [if_neg hg]
      rcases ih m o hm with
        ⟨heq, hall⟩ | ⟨l1, e, l2, hsplit, hef, h2, h1, hlt2, hprev⟩
      · left
        refine ⟨heq, ?_⟩
        intro e' he' hf'
        rcases List.mem_cons.1 he' with rfl | hmem
        · exact absurd hf' hg
        · exact hall e' hmem hf'
      · right
        refine ⟨(g, p) :: l1, e, l2, by rw [hsplit]; rfl, hef, h2, h1, hlt2, ?_⟩
        intro e' he' hf'
        rcases List.mem_cons.1 he' with rfl | hmem
        · exact absurd hf' hg
        · exact hprev e' hmem hf'

/-! ## The spec's opcode cost function -/

/-- Length of a nonzero-filter through one more byte. -/
theorem filter_cons_ne (x : Nat) (l : List Nat) :
    ((x :: l).filter (· ≠ 0)).length
      = (if x ≠ 0 then 1 else 0) + (l.filter (· ≠ 0)).length := by
  by_cases hx : x = 0
  · simp [List.filter_cons, hx]
  · simp [List.filter_cons, hx]
    omega

/-! ## The claims -/

/-- Claim C1: for every nonempty reference and target whose target holds
bytes, on the domain where every C integer stays in range — `|R| < 2^31`
keeps the `int bufsize` of `delta_prepare` positive, and `|T| ≤ 2^28`
keeps the `unsigned int` write position and capacity below `2^31`, so
neither the counters nor the 32-bit capacity growth ever wrap —
`diff_delta` at `max_size = 0` succeeds and applying the produced delta
to the reference per the wire format reconstructs the target exactly. -/
theorem claim1_roundtrip (R T : List Nat)
    (hR : R.length ≠ 0) (hT : T.length ≠ 0)
    (hR31 : R.length < 2 ^ 31) (hT28 : T.length ≤ 2 ^ 28)
    (HT : ∀ b ∈ T, b < 256) :
    ∃ d, diff_delta R T 0 = some d ∧ applyDelta R d = some T := by
  rcases diff_delta_cases R T 0 hR hT hR31 hT28 (fun h => absurd rfl h)
    with ⟨hm, _⟩ | ⟨rest, hres, _, _, hparse⟩
  · exact absurd rfl hm
  · obtain ⟨ops, hops, hbounds, hrun⟩ := hparse (by omega)
    refine ⟨(lebBytes R.length ++ lebBytes T.length) ++ rest, hres, ?_⟩
    rw [List.append_assoc]
    unfold applyDelta
    rw [lebDecode_lebBytes]
    dsimp only
    rw [lebDecode_lebBytes]
    dsimp only
    rw [hops]
    dsimp only
    rw [hrun HT]
    dsimp only
    rw [if_pos ⟨rfl, rfl⟩]

/-- Witness for C1 at a concrete pair of buffers. -/
theorem claim1_roundtrip_witness :
    (∀ b ∈ ([2] : List Nat), b < 256) ∧
    ∃ d, diff_delta [1] [2] 0 = some d ∧ applyDelta [1] d = some [2] :=
  ⟨by decide, claim1_roundtrip [1] [2] (by decide) (by decide) (by decide)
    (by decide) (by decide)⟩

/-- Claim C2: on the wrap-free domain (`|R| < 2^31` for the `int bufsize`
of `delta_prepare`, `|T| ≤ 2^28` so the `unsigned int` counters stay
below `2^31`, `max_size` in the `unsigned long` range), every delta
`diff_delta` returns consists of the two size headers followed by an
opcode stream whose every COPY `(off, size)` satisfies
`off + size ≤ |R|`. -/
theorem claim2_copy_bounds (R T : List Nat) (maxSize : Nat) (d : List Nat)
    (hR31 : R.length < 2 ^ 31) (hT28 : T.length ≤ 2 ^ 28)
    (hm64 : maxSize < 2 ^ 64)
    (hd : diff_delta R T maxSize = some d) :
    ∃ r1 r2 ops,
      lebDecode d = some (R.length, r1) ∧ lebDecode r1 = some (T.length, r2) ∧
      parseOps r2 = some ops ∧
      ∀ off sz, DOp.cpy off sz ∈ ops → off + sz ≤ R.length := by
  by_cases hRe : R.length = 0 ∨ T.length = 0
  · rw [show diff_delta R T maxSize = none from by
      unfold diff_delta diff_delta_impl; rw [if_pos hRe]] at hd
    exact absurd hd (by simp)
  · have hR0 : R.length ≠ 0 := by omega
    have hT0 : T.length ≠ 0 := by omega
    by_cases hhdr : maxSize ≠ 0 →
        (lebBytes R.length).length + (lebBytes T.length).length ≤ maxSize
    · rcases diff_delta_cases R T maxSize hR0 hT0 hR31 hT28 hhdr
        with ⟨_, hnone⟩ | ⟨rest, hres, _, _, hparse⟩
      · rw [hnone] at hd
        exact absurd hd (by simp)
      · rw [hres] at hd
        obtain ⟨ops, hops, hbounds, _⟩ := hparse (by omega)
        obtain rfl : d = (lebBytes R.length ++ lebBytes T.length) ++ rest :=
          (Option.some.inj hd).symm
        refine ⟨lebBytes T.length ++ rest, rest, ops, ?_,
          lebDecode_lebBytes _ _, hops, hbounds⟩
        rw [List.append_assoc]
        exact lebDecode_lebBytes _ _
    · push_neg at hhdr
      have hA := lebBytes_le_ten R.length (by omega)
      have hB := lebBytes_le_ten T.length (by omega)
      rw [diff_delta_hdr_fail R T maxSize hR0 hT0 hhdr.1 (by omega) (by omega)] at hd
      exact absurd hd (by simp)

set_option maxHeartbeats 1000000 in
/-- Witness for C2 on a delta containing a COPY opcode. -/
theorem claim2_copy_bounds_witness :
    diff_delta refTwice sampleBlock 0 = some [32, 16, 144, 16] ∧
    ∃ r1 r2 ops,
      lebDecode [32, 16, 144, 16] = some (refTwice.length, r1) ∧
      lebDecode r1 = some (sampleBlock.length, r2) ∧
      parseOps r2 = some ops ∧
      ∀ off sz, DOp.cpy off sz ∈ ops → off + sz ≤ refTwice.length :=
  ⟨by decide, claim2_copy_bounds refTwice sampleBlock 0 [32, 16, 144, 16]
    (by decide) (by decide) (by decide) (by decide)⟩

/-- Claim C3: under a nonzero cap `m` in the `unsigned long` range, on
the wrap-free domain (`|R| < 2^31` for the `int bufsize`, `|T| ≤ 2^28`
so the `unsigned int` counters and the 32-bit capacity growth never
wrap), any delta `diff_delta` returns is at most `m + MAX_OP_SIZE + 1`
bytes long (exceeding the cap makes the call return the NULL result
instead). -/
theorem claim3_cap (R T : List Nat) (maxSize : Nat) (d : List Nat)
    (hm : 0 < maxSize) (hm64 : maxSize < 2 ^ 64)
    (hR31 : R.length < 2 ^ 31) (hT28 : T.length ≤ 2 ^ 28)
    (hd : diff_delta R T maxSize = some d) :
    d.length ≤ maxSize + MAX_OP_SIZE + 1 := by
  by_cases hRe : R.length = 0 ∨ T.length = 0
  · rw [show diff_delta R T maxSize = none from by
      unfold diff_delta diff_delta_impl; rw [if_pos hRe]] at hd
    exact absurd hd (by simp)
  · have hR0 : R.length ≠ 0 := by omega
    have hT0 : T.length ≠ 0 := by omega
    by_cases hhdr : maxSize ≠ 0 →
        (lebBytes R.length).length + (lebBytes T.length).length ≤ maxSize
    · rcases diff_delta_cases R T maxSize hR0 hT0 hR31 hT28 hhdr
        with ⟨_, hnone⟩ | ⟨rest, hres, _, hcap, _⟩
      · rw [hnone] at hd
        exact absurd hd (by simp)
      · rw [hres] at hd
        obtain rfl : d = (lebBytes R.length ++ lebBytes T.length) ++ rest :=
          (Option.some.inj hd).symm
        have hc := hcap (by omega)
        have h7 := max_op_size_val
        simp
        omega
    · push_neg at hhdr
      have hA := lebBytes_le_ten R.length (by omega)
      have hB := lebBytes_le_ten T.length (by omega)
      rw [diff_delta_hdr_fail R T maxSize hR0 hT0 hhdr.1 (by omega) (by omega)] at hd
      exact absurd hd (by simp)

/-- Witness for C3 at a concrete capped call. -/
theorem claim3_cap_witness :
    diff_delta [1] [2] 100 = some [1, 1, 1, 2] ∧
    ([1, 1, 1, 2] : List Nat).length ≤ 100 + MAX_OP_SIZE + 1 :=
  ⟨by decide, claim3_cap [1] [2] 100 [1, 1, 1, 2] (by decide) (by decide)
    (by decide) (by decide) (by decide)⟩

set_option maxHeartbeats 1000000 in
/-- Claim C4 (counterexample): with a reference made of the same 16-byte
block twice, the bucket chain lists position 0 before position 16 — the
chain is ascending, not the claimed descending order — and on an exact
tie of common-run lengths the chain walk keeps the earlier offset 0, not
the later 16. -/
theorem claim4_cex :
    (delta_prepare refTwice).fphash
        (hashv (fpAt refTwice 0) (delta_prepare refTwice).fphbits)
      = [(fpAt refTwice 0, 0), (fpAt refTwice 0, 16)] ∧
    fpAt refTwice 0 = fpAt refTwice 16 ∧
    commonLen (refTwice.drop 0) sampleBlock = commonLen (refTwice.drop 16) sampleBlock ∧
    (walkChain refTwice sampleBlock 0 (fpAt refTwice 0)
      ((delta_prepare refTwice).fphash
        (hashv (fpAt refTwice 0) (delta_prepare refTwice).fphbits))
      (0, 0)).2 = 0 := by
  decide

/-- Claim C4 (amended): bucket chains are in strictly ascending
reference-position order, and whenever the chain walk improves on the
zero-length initial match, it returns a chain record all of whose
strictly earlier fingerprint-matching records have strictly smaller
common runs — ties on length favor the earliest reference position. -/
theorem claim4_amended :
    (∀ (buf : List Nat) (j : Nat),
      List.Pairwise (fun a b => a.2 < b.2) ((delta_prepare buf).fphash j)) ∧
    (∀ (R T : List Nat) (pos f moff0 : Nat) (l : List (Nat × Nat)),
      (walkChain R T pos f l (0, moff0)).1 ≠ 0 →
      ∃ l1 e l2, l = l1 ++ e :: l2 ∧ e.1 = f ∧
        (walkChain R T pos f l (0, moff0)).2 = e.2 ∧
        (walkChain R T pos f l (0, moff0)).1
          = min (commonLen (R.drop e.2) (T.drop pos)) 65536 ∧
        ∀ e' ∈ l1, e'.1 = f →
          commonLen (R.drop e'.2) (T.drop pos) < (walkChain R T pos f l (0, moff0)).1) := by
  constructor
  · exact delta_prepare_sorted
  · intro R T pos f moff0 l hne
    rcases walkChain_first R T pos f l 0 moff0 (by omega) with
      ⟨heq, _⟩ | ⟨l1, e, l2, hsplit, hef, h2, h1, _, hprev⟩
    · rw [heq] at hne
      exact absurd rfl hne
    · exact ⟨l1, e, l2, hsplit, hef, h2, h1, hprev⟩

/-- Witness for the amended C4 at a concrete one-record chain. -/
theorem claim4_amended_witness :
    ((walkChain [5, 6] [5, 6] 0 (fpAt [5, 6] 0) [(fpAt [5, 6] 0, 0)] (0, 0)).1 ≠ 0) ∧
    (∃ l1 e l2, [(fpAt [5, 6] 0, 0)] = l1 ++ e :: l2 ∧ e.1 = fpAt [5, 6] 0 ∧
      (walkChain [5, 6] [5, 6] 0 (fpAt [5, 6] 0) [(fpAt [5, 6] 0, 0)] (0, 0)).2 = e.2 ∧
      (walkChain [5, 6] [5, 6] 0 (fpAt [5, 6] 0) [(fpAt [5, 6] 0, 0)] (0, 0)).1
        = min (commonLen (([5, 6] : List Nat).drop e.2) (([5, 6] : List Nat).drop 0)) 65536 ∧
      ∀ e' ∈ l1, e'.1 = fpAt [5, 6] 0 →
        commonLen (([5, 6] : List Nat).drop e'.2) (([5, 6] : List Nat).drop 0)
          < (walkChain [5, 6] [5, 6] 0 (fpAt [5, 6] 0) [(fpAt [5, 6] 0, 0)] (0, 0)).1) :=
  ⟨by decide, claim4_amended.2 [5, 6] [5, 6] 0 (fpAt [5, 6] 0) 0
    [(fpAt [5, 6] 0, 0)] (by decide)⟩

/-- Claim C5 (counterexample): for a 17-byte reference the table has
`2^1 = 2` buckets, yet the claimed width demands
`2^k ≥ ceil(17/16) + 1 = 3`. -/
theorem claim5_cex :
    (delta_prepare (List.replicate 17 0)).fphbits = 1 ∧
    ¬ ((List.replicate 17 (0 : Nat)).length + 16 - 1) / 16 + 1
        ≤ 2 ^ (delta_prepare (List.replicate 17 0)).fphbits := by
  decide

/-- Claim C5 (amended): the table width `k` is the smallest integer
`≥ 1` with `2^k ≥ floor(|R|/16) + 1`. -/
theorem claim5_amended (R : List Nat) (hR : R.length < 2 ^ 31) :
    1 ≤ (delta_prepare R).fphbits ∧
    R.length / 16 + 1 ≤ 2 ^ (delta_prepare R).fphbits ∧
    ((delta_prepare R).fphbits = 1 ∨
      ¬ R.length / 16 + 1 ≤ 2 ^ ((delta_prepare R).fphbits - 1)) := by
  have hfp : (delta_prepare R).fphbits = hashbits (R.length / 16 + 1) := rfl
  rw [hfp]
  exact hashbits_spec (R.length / 16 + 1) (by omega) (by omega)

/-- Witness for the amended C5 at a concrete reference. -/
theorem claim5_amended_witness :
    (sampleBlock.length < 2 ^ 31) ∧
    (1 ≤ (delta_prepare sampleBlock).fphbits ∧
      sampleBlock.length / 16 + 1 ≤ 2 ^ (delta_prepare sampleBlock).fphbits ∧
      ((delta_prepare sampleBlock).fphbits = 1 ∨
        ¬ sampleBlock.length / 16 + 1 ≤ 2 ^ ((delta_prepare sampleBlock).fphbits - 1))) :=
  ⟨by decide, claim5_amended sampleBlock (by decide)⟩

/-- Claim C6 (counterexample): `MAX_OP_SIZE` is not 8. -/
theorem claim6_cex : ¬ MAX_OP_SIZE = 8 := by decide

/-- Claim C6 (amended): `MAX_OP_SIZE`, the COPY cost at the largest
offset and size, equals 7. -/
theorem claim6_amended :
    MAX_OP_SIZE = COPYOP_SIZE 0xffffffff 0xffffffff ∧ MAX_OP_SIZE = 7 :=
  ⟨rfl, by decide⟩

/-- Claim C7: the encoder's branch condition agrees with the spec's cost
function — a literal is emitted exactly when `msize = 0` or
`msize < cost(moff, msize)`, and on the tie `msize = cost` the COPY path
is taken. -/
theorem claim7_literal_condition (msize moff : Nat) :
    COPYOP_SIZE moff msize = specCost moff msize ∧
    (literalCond msize moff ↔ msize = 0 ∨ msize < specCost moff msize) ∧
    (msize = specCost moff msize → ¬ literalCond msize moff) := by
  have hcs : COPYOP_SIZE moff msize = specCost moff msize := by
    unfold COPYOP_SIZE specCost
    simp only [filter_cons_ne, List.filter_nil, List.length_nil]
    omega
  refine ⟨hcs, ?_, ?_⟩
  · unfold literalCond
    rw [hcs]
  · intro heq hlitc
    have h1 := copyop_size_pos moff msize
    rw [hcs] at h1
    unfold literalCond at hlitc
    rw [hcs] at hlitc
    omega

/-- Witness for C7 at a concrete match. -/
theorem claim7_literal_condition_witness :
    COPYOP_SIZE 0 2 = specCost 0 2 ∧
    (literalCond 2 0 ↔ 2 = 0 ∨ 2 < specCost 0 2) ∧
    (2 = specCost 0 2 → ¬ literalCond 2 0) :=
  claim7_literal_condition 2 0

set_option maxHeartbeats 4000000 in
/-- Claim C8 (counterexample): a 6-byte target whose delta is 10 bytes,
exceeding the claimed bound `|T| + ceil(|T|/127) + header_size = 9`. -/
theorem claim8_cex :
    ∃ d, diff_delta refLone tgtRuns 0 = some d ∧
      ¬ d.length ≤ tgtRuns.length + (tgtRuns.length + 126) / 127
          + ((lebBytes refLone.length).length + (lebBytes tgtRuns.length).length) :=
  ⟨[16, 6, 1, 1, 144, 2, 3, 1, 0, 0], by decide, by decide⟩

/-- Claim C8 (amended): with no cap, on the wrap-free domain
(`|R| < 2^31` for the `int bufsize`, `|T| ≤ 2^28` so the `unsigned int`
counters and the 32-bit capacity growth never wrap), `diff_delta`
succeeds on nonempty inputs and the delta is at most
`2·|T| + header_size` bytes: each target byte costs at most one literal
byte plus one byte of framing or COPY cost. -/
theorem claim8_amended (R T : List Nat)
    (hR : R.length ≠ 0) (hT : T.length ≠ 0)
    (hR31 : R.length < 2 ^ 31) (hT28 : T.length ≤ 2 ^ 28) :
    ∃ d, diff_delta R T 0 = some d ∧
      d.length ≤ 2 * T.length
        + ((lebBytes R.length).length + (lebBytes T.length).length) := by
  rcases diff_delta_cases R T 0 hR hT hR31 hT28 (fun h => absurd rfl h)
    with ⟨hm, _⟩ | ⟨rest, hres, hlen, _, _⟩
  · exact absurd rfl hm
  · refine ⟨_, hres, ?_⟩
    simp
    omega

/-- Witness for the amended C8 at a concrete pair of buffers. -/
theorem claim8_amended_witness :
    (([1] : List Nat).length ≠ 0) ∧
    ∃ d, diff_delta [1] [2] 0 = some d ∧
      d.length ≤ 2 * ([2] : List Nat).length
        + ((lebBytes ([1] : List Nat).length).length
          + (lebBytes ([2] : List Nat).length).length) :=
  ⟨by decide, claim8_amended [1] [2] (by decide) (by decide) (by decide) (by decide)⟩

/-- Claim C9: if either buffer is empty, `diff_delta` returns the NULL
result for every cap. -/
theorem claim9_empty_inputs (R T : List Nat) (maxSize : Nat)
    (h : R.length = 0 ∨ T.length = 0) :
    diff_delta R T maxSize = none := by
  unfold diff_delta diff_delta_impl
  rw [if_pos h]

/-- Witness for C9 at a concrete empty reference. -/
theorem claim9_empty_inputs_witness :
    (([] : List Nat).length = 0 ∨ ([1] : List Nat).length = 0) ∧
    diff_delta [] [1] 5 = none :=
  ⟨Or.inl rfl, claim9_empty_inputs [] [1] 5 (Or.inl rfl)⟩

/-- When the nonzero cap makes the initial capacity smaller than the two
header integers, a header byte is stored at an index not below the
capacity and the store-bounds flag goes false for good. -/
theorem storesOk_header_miss (R T : List Nat) (m : Nat)
    (hR : R.length ≠ 0) (hT : T.length ≠ 0) (hm : m ≠ 0) (hm8 : m ≤ 8192)
    (hbig : m + 8 < (lebBytes R.length).length + (lebBytes T.length).length) :
    diff_delta_storesOk R T m = false := by
  unfold diff_delta_storesOk
  rw [diff_delta_impl_eq R T m hR hT]
  rw [if_pos (show m ≠ 0 ∧ 8192 ≥ m from ⟨hm, hm8⟩)]
  rw [decide_eq_false (show ¬ ((lebBytes R.length).length + (lebBytes T.length).length
    ≤ m + MAX_OP_SIZE + 1) by have h7 := max_op_size_val; omega)]
  apply encodeLoop_flag_mono
  rfl

/-- Claim C10 (counterexample): with `max_size = 1` and 2^28-byte inputs
the initial capacity is `max_size + MAX_OP_SIZE + 1 = 9` bytes while the
two headers need 10, so a header byte is stored at an index not below
the capacity. -/
theorem claim10_cex :
    diff_delta_storesOk (List.replicate (2 ^ 28) 0) (List.replicate (2 ^ 28) 0) 1
      = false := by
  have h5 : 5 ≤ (lebBytes (2 ^ 28)).length :=
    lebRun_length_ge (2 ^ 28) 4 (2 ^ 28 / 128) (2 ^ 28 % 256) (by norm_num) (by norm_num)
  have hlen : (List.replicate (2 ^ 28) (0 : Nat)).length = 2 ^ 28 :=
    List.length_replicate _ _
  apply storesOk_header_miss
  · rw [hlen]
    norm_num
  · rw [hlen]
    norm_num
  · norm_num
  · norm_num
  · rw [hlen]
    omega

/-- Claim C10 (amended): with no cap, on the wrap-free domain
(`|R| < 2^31` for the `int bufsize`, `|T| ≤ 2^28` so the `unsigned int`
write position and capacity stay below `2^31` and the 32-bit capacity
growth never truncates), every byte store of `diff_delta` lands strictly
below the capacity current at the time of the store. -/
theorem claim10_amended (R T : List Nat)
    (hR31 : R.length < 2 ^ 31) (hT28 : T.length ≤ 2 ^ 28) :
    diff_delta_storesOk R T 0 = true := by
  by_cases hRe : R.length = 0 ∨ T.length = 0
  · unfold diff_delta_storesOk diff_delta_impl
    rw [if_pos hRe]
  · have hR0 : R.length ≠ 0 := by omega
    have hT0 : T.length ≠ 0 := by omega
    have hA := lebBytes_le_ten R.length (by omega)
    have hB := lebBytes_le_ten T.length (by omega)
    unfold diff_delta_storesOk
    rw [diff_delta_impl_eq R T 0 hR0 hT0]
    rw [if_neg (by simp : ¬ ((0 : Nat) ≠ 0 ∧ 8192 ≥ 0))]
    have main := encodeLoop_spec R T (delta_prepare R) 0 T.length 0 0
      (lebBytes R.length ++ lebBytes T.length) (lebBytes R.length ++ lebBytes T.length)
      8192 0
      (decide ((lebBytes R.length).length + (lebBytes T.length).length ≤ 8192))
      (by omega) (by omega) (by omega) (by omega) (by simp) (Or.inr le_rfl)
      (fun hc => absurd rfl hc) (by simp; omega) (by simp; omega)
    rw [main.1 rfl]
    exact decide_eq_true (by omega)

/-- Witness for the amended C10 at a concrete pair of buffers. -/
theorem claim10_amended_witness :
    (([1] : List Nat).length < 2 ^ 31) ∧
    diff_delta_storesOk [1] [2] 0 = true :=
  ⟨by decide, claim10_amended [1] [2] (by decide) (by decide)⟩

end DiffDelta
